import Mathlib

/-!
Verification of the resgate resource cache and subscription coordinator
(src/server/rescache/resourceSubscription.go).

The embedding is shallow: `codec.Value` is an arbitrary type `α` with decidable
structural equality (the codec of the repository treats values as opaque JSON with
structural equality); subscribers are an arbitrary type `β`; Go maps keyed by
strings are association lists; Go slices are lists; Go `int` is `Int` where
subtraction can occur and `Nat` for counters that only grow.  Encode/decode pairs
of the codec facade are identities: an event carries its decoded payload directly,
with `none` standing for a payload that fails to decode.
-/

namespace Resgate

/-- A `codec.Value` as it appears inside a change-event props map: either a plain
value or the `ValueTypeDelete` sentinel. -/
inductive CVal (α : Type) where
  | plain (v : α)
  | deleteSentinel
  deriving DecidableEq

/-- Event kind together with its decoded payload, mirroring
`ResourceEvent.Event` / `ResourceEvent.Payload`.  `.other` covers event names
outside change/add/remove/delete — in particular "reaccess", which the cache
never decodes. -/
inductive REvent (α : Type) where
  | change (props : Option (List (String × CVal α)))
  | add (params : Option (Int × α))
  | remove (params : Option Int)
  | delete
  | other (name : String)
  deriving DecidableEq

/-- The event name, as matched by the switch in `handleEvent`. -/
def REvent.name {α : Type} : REvent α → String
  | .change _ => "change"
  | .add _ => "add"
  | .remove _ => "remove"
  | .delete => "delete"
  | .other n => n

/-- True exactly for remove events. -/
def REvent.isRemove {α : Type} : REvent α → Bool
  | .remove _ => true
  | _ => false

/-- True exactly for add events. -/
def REvent.isAdd {α : Type} : REvent α → Bool
  | .add _ => true
  | _ => false

/-! ## The diff engine: `lcs` (resourceSubscription.go lines 519-628) -/

/-- The first loop of `lcs`: the length of the common prefix of `a` and `b`
(`for s < m && s < n && a[s].Equal(b[s]) { s++ }`). -/
def prefLen {α : Type} [DecidableEq α] : List α → List α → Nat
  | x :: xs, y :: ys => if x = y then prefLen xs ys + 1 else 0
  | _, _ => 0

/-- The second loop of `lcs`: the number of iterations of
`for s < m && s < n && a[m-1].Equal(b[n-1]) { m--; n-- }` started at `m`, `n`.
The recursion is structural on `m`, which every iteration decrements. -/
def sufTrimLen {α : Type} [DecidableEq α] [Inhabited α] (a b : List α) (s : Nat) :
    Nat → Nat → Nat
  | 0, _ => 0
  | m + 1, n =>
    if s < m + 1 ∧ s < n ∧ a.getD m default = b.getD (n - 1) default then
      sufTrimLen a b s m (n - 1) + 1
    else 0

/-- One row of the LCS matrix fill (inner `for j` loop): given row `i` as `prev`
and the test `eqj j` deciding `aa[i].Equal(bb[j])`, this computes row `i + 1`:
`c[(i+1)+w*(j+1)]` is `c[i+w*j]+1` on a match and otherwise the larger of
`c[(i+1)+w*j]` and `c[i+w*(j+1)]`. -/
def cMatRow (prev : Nat → Nat) (eqj : Nat → Bool) : Nat → Nat
  | 0 => 0
  | j + 1 => if eqj j then prev j + 1 else max (cMatRow prev eqj j) (prev (j + 1))

/-- The LCS length matrix of `lcs`: `cMat aa bb i j` is the cell `c[i + w*j]` of
the flat matrix after the fill loops (`make` zero-initializes every cell, and row 0
and column 0 are never written). -/
def cMat {α : Type} [DecidableEq α] [Inhabited α] (aa bb : List α) : Nat → Nat → Nat
  | 0 => fun _ => 0
  | i + 1 => cMatRow (cMat aa bb i) fun j => decide (aa.getD i default = bb.getD j default)

/-- The backtracking loop of `lcs`.  `fuel` bounds the number of iterations: each
iteration decreases `i + j` by at least one and the loop breaks exactly at
`i = j = 0`, so any fuel at least `i + j` gives the fuel-independent loop result
(`backtrack_fuel_irrel`).  Returns the remove events in emission order, the
collected add records — a record `(n, idx, r)` is the Go triple `[3]int{n, idx, r}`
— and the final value of `r`. -/
def backtrack {α : Type} [DecidableEq α] [Inhabited α] (aa bb : List α) :
    Nat → Nat → Nat → Int → Nat → List (REvent α) × List (Nat × Int × Nat) × Nat
  | 0, _, _, _, r => ([], [], r)
  | fuel + 1, i, j, idx, r =>
    if 0 < i ∧ 0 < j ∧ aa.getD (i - 1) default = bb.getD (j - 1) default then
      backtrack aa bb fuel (i - 1) (j - 1) (idx - 1) r
    else if 0 < j ∧ (i = 0 ∨ cMat aa bb i (j - 1) ≥ cMat aa bb (i - 1) j) then
      ((backtrack aa bb fuel i (j - 1) idx r).1,
        (j - 1, idx, r) :: (backtrack aa bb fuel i (j - 1) idx r).2.1,
        (backtrack aa bb fuel i (j - 1) idx r).2.2)
    else if 0 < i ∧ (j = 0 ∨ cMat aa bb i (j - 1) < cMat aa bb (i - 1) j) then
      (.remove (some (idx - 1)) :: (backtrack aa bb fuel (i - 1) j (idx - 1) (r + 1)).1,
        (backtrack aa bb fuel (i - 1) j (idx - 1) (r + 1)).2.1,
        (backtrack aa bb fuel (i - 1) j (idx - 1) (r + 1)).2.2)
    else ([], [], r)

/-- The add-emission loop of `lcs`
(`for i := l; i >= 0; i-- { Idx: add[1] - r + add[2] + l - i }`): records are
emitted in reverse collection order, and for the record at position `i` the term
`l - i` equals the number of records after it (`rest.length` below), so the loop
is this recursion on the record list. -/
def emitAdds {α : Type} [Inhabited α] (bb : List α) (r : Nat) :
    List (Nat × Int × Nat) → List (REvent α)
  | [] => []
  | (n, idxRec, rRec) :: rest =>
    emitAdds bb r rest ++
      [.add (some (idxRec - (r : Int) + (rRec : Int) + (rest.length : Int),
        bb.getD n default))]

/-- `rescache.lcs` (lines 519-628): the LCS-based diff of value sequences `a` and
`b` as a list of remove events followed by add events.  The Go function wraps each
event in a `ResourceEvent` with an encoded payload; the encode/decode round trip
is the identity, so events here carry their payloads directly. -/
def lcs {α : Type} [DecidableEq α] [Inhabited α] (a b : List α) : List (REvent α) :=
  let s := prefLen a b
  if s = a.length ∧ s = b.length then []
  else
    let t := sufTrimLen a b s a.length b.length
    let m := a.length - t - s
    let n := b.length - t - s
    let aa := (a.drop s).take m
    let bb := (b.drop s).take n
    let res := backtrack aa bb (m + n) m n ((m : Int) + (s : Int)) 0
    res.1 ++ emitAdds bb res.2.2 res.2.1

/-- Application of a single diff event to a collection, exactly as
`handleEventAdd` / `handleEventRemove` apply it: an add is rejected unless
`0 ≤ idx ≤ len` and splices the value in (`copy(col, old[0:idx]);
col[idx] = v; copy(col[idx+1:], old[idx:])`); a remove is rejected unless
`0 ≤ idx < len` and drops the element.  Events of any other kind, or with an
undecodable payload, are rejected. -/
def applyDiffEvent {α : Type} (l : List α) : REvent α → Option (List α)
  | .add (some (idx, v)) =>
    if 0 ≤ idx ∧ idx ≤ (l.length : Int) then
      some (l.take idx.toNat ++ v :: l.drop idx.toNat)
    else none
  | .remove (some idx) =>
    if 0 ≤ idx ∧ idx < (l.length : Int) then
      some (l.take idx.toNat ++ l.drop (idx.toNat + 1))
    else none
  | _ => none

/-- Apply a list of diff events in order; `none` as soon as one is rejected. -/
def applyDiff {α : Type} (l : List α) (evs : List (REvent α)) : Option (List α) :=
  evs.foldlM applyDiffEvent l

/-- Reference definition following the spec's words: `|LCS(a,b)|`, the length of a
longest common subsequence of `a` and `b` (spec section 8, property 4 and the
glossary).  This is the spec-side definition the diff engine is compared with;
`le_lcsSpec_of_sublist` and `exists_common_of_length_lcsSpec` establish that it is
the maximal length of a common subsequence. -/
def lcsSpec {α : Type} [DecidableEq α] : List α → List α → Nat
  | [], _ => 0
  | _ :: _, [] => 0
  | x :: xs, y :: ys =>
    if x = y then lcsSpec xs ys + 1
    else max (lcsSpec (x :: xs) ys) (lcsSpec xs (y :: ys))
termination_by x y => x.length + y.length

/-! ## The subscription state machine
(ResourceSubscription, lines 10-18 and 58-337) -/

/-- `subscriptionState`: the byte constants `stateSubscribed` .. `stateModel`
declared by iota. -/
inductive SubState where
  | subscribed
  | error
  | requested
  | collection
  | model
  deriving DecidableEq

/-- The byte value of a state constant, in iota order; `handleEvent` compares
states through it (`rs.state <= stateRequested`). -/
def SubState.toByte : SubState → Nat
  | .subscribed => 0
  | .error => 1
  | .requested => 2
  | .collection => 3
  | .model => 4

/-- `rescache.ResourceEvent`: the event envelope.  `ev` carries Event and the
decoded Payload; the remaining fields (`Changed`, `OldValues`, `Idx`, `Value`)
are populated during application so downstream subscribers need not re-decode. -/
structure ResourceEvent (α : Type) where
  ev : REvent α
  changed : List (String × CVal α) := []
  oldValues : Option (List (String × α)) := none
  idx : Int := 0
  value : Option α := none
  deriving DecidableEq

/-- `rescache.ResourceSubscription` (D): per-(resource,query) cached state and
subscriber set.  The parent pointer `rs.e` is modelled by passing the `ES` state
explicitly to each operation.  `model`/`collection` are the two value stores (a
Go nil pointer is modelled by the state discipline: each store is dereferenced
only in its matching state); `subs` is the Go subscriber set, the list order
standing for the map iteration order; errors are strings. -/
structure RS (α β : Type) where
  query : String
  state : SubState := .subscribed
  subs : List β := []
  resetting : Bool := false
  links : List String := []
  model : List (String × α) := []
  collection : List α := []
  err : Option String := none
  deriving DecidableEq

/-- The part of `EventSubscription` (C) that the embedded operations touch:
`base` (the D of the empty query), `queries` (requested query → D) and `links`
(requested query → canonical query: a Go link points at the canonical D, which
is keyed by its own query under `queries` or is `base`, so the pointer is
modelled by that key), plus the aggregate subscriber count that `removeCount`
decrements (`removeCount` itself is not under src/; per spec section 3 it
maintains "a refcount of live Subscribers across all D's"). -/
structure ES (α β : Type) where
  base : Option (RS α β) := none
  queries : List (String × RS α β) := []
  links : List (String × String) := []
  count : Int := 0
  deriving DecidableEq

/-- Go map lookup on a string-keyed association list. -/
def mapGet {γ : Type} : List (String × γ) → String → Option γ
  | [], _ => none
  | (k', v) :: rest, k => if k' = k then some v else mapGet rest k

/-- Go map delete by key. -/
def mapDelete {γ : Type} (m : List (String × γ)) (k : String) : List (String × γ) :=
  m.filter fun p => decide (p.1 ≠ k)

/-- Go map set (insert or replace). -/
def mapSet {γ : Type} (m : List (String × γ)) (k : String) (v : γ) : List (String × γ) :=
  (k, v) :: mapDelete m k

/-- The props loop of `handleEventChange` (lines 193-208) over the cloned map:
a `Delete` sentinel removes the key when present and is otherwise dropped from
the props record; a plain value is dropped when structurally equal to the current
value — the Go zero Value read for an absent key never equals a decoded value —
and is otherwise written.  Returns the updated map and the surviving props. -/
def applyProps {α : Type} [DecidableEq α] (m : List (String × α)) :
    List (String × CVal α) → List (String × α) × List (String × CVal α)
  | [] => (m, [])
  | (k, .deleteSentinel) :: rest =>
    match mapGet m k with
    | some _ =>
      ((applyProps (mapDelete m k) rest).1,
        (k, .deleteSentinel) :: (applyProps (mapDelete m k) rest).2)
    | none => applyProps m rest
  | (k, .plain v) :: rest =>
    match mapGet m k with
    | some cur =>
      if cur = v then applyProps m rest
      else
        ((applyProps (mapSet m k v) rest).1,
          (k, .plain v) :: (applyProps (mapSet m k v) rest).2)
    | none =>
      ((applyProps (mapSet m k v) rest).1,
        (k, .plain v) :: (applyProps (mapSet m k v) rest).2)

/-- `handleEventChange` (lines 165-219).  `none` where Go returns false (event
dropped): a change against a Collection-state D, or no surviving props.  A decode
failure is logged in Go and then iterates a nil props map, hence behaves as an
empty map (`props?.getD []`); the legacy payload shape decodes to the same props
and is not distinguished.  On success the model is replaced by a new map and the
event is stamped with `Changed` (the surviving props) and `OldValues` (the
previous map). -/
def handleEventChange {α β : Type} [DecidableEq α] (rs : RS α β) (r : ResourceEvent α)
    (props? : Option (List (String × CVal α))) : Option (RS α β × ResourceEvent α) :=
  if rs.state = .collection then none
  else
    let props := props?.getD []
    let res := applyProps rs.model props
    if res.2 = [] then none
    else
      some ({rs with model := res.1},
        {r with changed := res.2, oldValues := some rs.model})

/-- `handleEventAdd` (lines 221-254).  `none` where Go returns false: add on a
Model-state D, undecodable payload, or index outside `[0, len]`.  On success the
collection is replaced by a freshly allocated slice with the value spliced at the
index (`make`/`copy`/`copy`/assign), and the event is stamped with Idx and
Value. -/
def handleEventAdd {α β : Type} (rs : RS α β) (r : ResourceEvent α)
    (params? : Option (Int × α)) : Option (RS α β × ResourceEvent α) :=
  if rs.state = .model then none
  else
    match params? with
    | none => none
    | some (idx, v) =>
      let old := rs.collection
      if idx < 0 ∨ idx > (old.length : Int) then none
      else
        some ({rs with collection := old.take idx.toNat ++ v :: old.drop idx.toNat},
          {r with idx := idx, value := some v})

/-- `handleEventRemove` (lines 256-287).  `none` where Go returns false: remove on
a Model-state D, undecodable payload, or index outside `[0, len)`.  On success the
removed value is captured into the event and the collection is replaced by a
freshly allocated slice one shorter. -/
def handleEventRemove {α β : Type} (rs : RS α β) (r : ResourceEvent α)
    (params? : Option Int) : Option (RS α β × ResourceEvent α) :=
  if rs.state = .model then none
  else
    match params? with
    | none => none
    | some idx =>
      let old := rs.collection
      if idx < 0 ∨ idx ≥ (old.length : Int) then none
      else
        some ({rs with collection := old.take idx.toNat ++ old.drop (idx.toNat + 1)},
          {r with idx := idx, value := old[idx.toNat]?})

/-- `unregister` (lines 323-337): delete this D and every link of it from the
parent EventSubscription, then clear the link list. -/
def unregister {α β : Type} (rs : RS α β) (es : ES α β) : RS α β × ES α β :=
  let es1 := if rs.query = "" then {es with base := none}
             else {es with queries := mapDelete es.queries rs.query}
  let es2 := rs.links.foldl (fun e q =>
    if q = "" then {e with base := none}
    else {e with links := mapDelete e.links q}) es1
  ({rs with links := []}, es2)

/-- `handleEventDelete` (lines 289-301): drain the subscriber set, unregister the
D, remove the drained count from the parent, and notify each drained subscriber
with the event (with the lock released). -/
def handleEventDelete {α β : Type} (rs : RS α β) (es : ES α β) (r : ResourceEvent α) :
    RS α β × ES α β × List (β × ResourceEvent α) :=
  let subs := rs.subs
  let c := (subs.length : Int)
  let res := unregister {rs with subs := []} es
  (res.1, {res.2 with count := res.2.count - c}, subs.map fun sub => (sub, r))

/-- `handleEvent` (lines 131-163): drop events arriving before the resource is
loaded unless the event name is "reaccess"; while resetting drop
change/add/remove and also skip delete; apply change/add/remove through their
handlers, dropping the event when they return false; apply delete through
`handleEventDelete` and return; any other event name — "reaccess" included —
mutates nothing; finally notify every subscriber with the (stamped) event.  The
returned list is the sequence of `Subscriber.Event` calls made with the lock
released. -/
def handleEvent {α β : Type} [DecidableEq α] (rs : RS α β) (es : ES α β)
    (r : ResourceEvent α) : RS α β × ES α β × List (β × ResourceEvent α) :=
  if rs.state.toByte ≤ SubState.requested.toByte ∧ r.ev.name ≠ "reaccess" then
    (rs, es, [])
  else
    match r.ev with
    | .change props? =>
      if rs.resetting then (rs, es, [])
      else
        match handleEventChange rs r props? with
        | none => (rs, es, [])
        | some (rs', r') => (rs', es, rs'.subs.map fun sub => (sub, r'))
    | .add params? =>
      if rs.resetting then (rs, es, [])
      else
        match handleEventAdd rs r params? with
        | none => (rs, es, [])
        | some (rs', r') => (rs', es, rs'.subs.map fun sub => (sub, r'))
    | .remove params? =>
      if rs.resetting then (rs, es, [])
      else
        match handleEventRemove rs r params? with
        | none => (rs, es, [])
        | some (rs', r') => (rs', es, rs'.subs.map fun sub => (sub, r'))
    | .delete =>
      if rs.resetting then (rs, es, [])
      else handleEventDelete rs es r
    | .other _ => (rs, es, rs.subs.map fun sub => (sub, r))

/-- True for the four event names the `handleEvent` switch matches
(change, add, remove, delete). -/
def REvent.isSwitchCase {α : Type} : REvent α → Bool
  | .other _ => false
  | _ => true

/-- `Unsubscribe` (lines 116-129): the body of the enqueued closure.  A nil
subscriber (`none`) deletes nothing from the subscriber set; a query-D whose
subscriber set is empty is unregistered at once; the parent count is decremented
by one in every case (`removeCount(1)`). -/
def Unsubscribe {α β : Type} [DecidableEq β] (rs : RS α β) (es : ES α β)
    (sub : Option β) : RS α β × ES α β :=
  let rs1 := match sub with
    | some sb => {rs with subs := rs.subs.erase sb}
    | none => rs
  let res := if rs1.query ≠ "" ∧ rs1.subs = [] then unregister rs1 es else (rs1, es)
  (res.1, {res.2 with count := res.2.count - 1})

/-- `codec.GetResult`: the decoded body of a get response — the normalized query
and either a model (`Model != nil`) or a collection. -/
structure GetResult (α : Type) where
  query : String := ""
  model : Option (List (String × α)) := none
  collection : List α := []
  deriving DecidableEq

/-- Modelled from the spec: `EventSubscription.getResourceSubscription` is not
under src/ (it lives in eventSubscription.go).  Per spec section 4.D it locates
or creates the D for a query — the base D for the empty query, otherwise the
entry of the queries map — and a D is created in Requested state ("Initial
state: `Requested`. On creation the D is inserted into `queries` (or becomes
`base`)"), with its `get` request issued by the same missing code. -/
def getResourceSubscription {α β : Type} [DecidableEq α] [DecidableEq β]
    (es : ES α β) (q : String) : RS α β × ES α β :=
  if q = "" then
    match es.base with
    | some r => (r, es)
    | none =>
      let r : RS α β := {query := "", state := .requested}
      (r, {es with base := some r})
  else
    match mapGet es.queries q with
    | some r => (r, es)
    | none =>
      let r : RS α β := {query := q, state := .requested}
      (r, {es with queries := mapSet es.queries q r})

/-- The install step of `processGetResponse` (lines 415-421): `result.Model`
non-nil installs a Model, otherwise the Collection is installed. -/
def install {α β : Type} (rs : RS α β) (result : GetResult α) : RS α β :=
  match result.model with
  | some m => {rs with model := m, state := .model}
  | none => {rs with collection := result.collection, state := .collection}

/-- `processGetResponse` (lines 339-423).  `resp` is the transport error or the
decoded GetResult (`DecodeGetResponse` folded into the callback value).  Returns
the D that subscribers are notified against (`nrs`), the updated parent state,
and the subscriber list to notify — cloned from the requesting D, whose set is
unchanged by the migration.  Pointer mutation of the canonical D is rendered by
writing its final value to every location that references it: its home slot
(`base` for the empty canonical query, else `queries[result.query]`) and `base`
when the requesting D was the base.  In the non-normalized success path Go
mutates `rs` in place; the map slot still holding it (pointer identity
approximated by value equality) is updated accordingly. -/
def processGetResponse {α β : Type} [DecidableEq α] [DecidableEq β] (rs : RS α β)
    (es : ES α β) (resp : Except String (GetResult α)) :
    RS α β × ES α β × List β :=
  match resp with
  | .error e =>
    let rs1 : RS α β := {rs with state := .error, err := some e}
    let sublist := rs1.subs
    let res := unregister {rs1 with subs := []} es
    (res.1, {res.2 with count := res.2.count - (sublist.length : Int)}, sublist)
  | .ok result =>
    if result.query ≠ rs.query then
      let found := getResourceSubscription es result.query
      let nrs0 := found.1
      let es1 := found.2
      let es2 := if rs.query = "" then es1
                 else {es1 with links := mapSet es1.links rs.query result.query,
                                queries := mapDelete es1.queries rs.query}
      let nrs1 := {nrs0 with links := nrs0.links ++ [rs.query],
                             subs := rs.subs.foldl (fun acc sb =>
                               if sb ∈ acc then acc else acc ++ [sb]) nrs0.subs}
      let sublist := rs.subs
      let nrs2 := if nrs1.state.toByte > SubState.requested.toByte then nrs1
                  else install nrs1 result
      let es3 := if result.query = "" then {es2 with base := some nrs2}
                 else {es2 with queries := mapSet es2.queries result.query nrs2}
      let es4 := if rs.query = "" then {es3 with base := some nrs2} else es3
      (nrs2, es4, sublist)
    else
      let sublist := rs.subs
      if rs.state.toByte > SubState.requested.toByte then (rs, es, sublist)
      else
        let rs' := install rs result
        let es' := if rs.query = "" then
                     (if es.base = some rs then {es with base := some rs'} else es)
                   else
                     (if mapGet es.queries rs.query = some rs then
                        {es with queries := mapSet es.queries rs.query rs'} else es)
        (rs', es', sublist)

/-- `enqueueGetResponse` (lines 303-319): run `processGetResponse`, then — with
the lock released — call `Loaded(nil, err)` on each listed subscriber when the
returned D is in Error state, and `Loaded(nrs, nil)` otherwise.  A notification
entry is (subscriber, D passed to Loaded, error passed to Loaded). -/
def enqueueGetResponse {α β : Type} [DecidableEq α] [DecidableEq β] (rs : RS α β)
    (es : ES α β) (resp : Except String (GetResult α)) :
    RS α β × ES α β × List (β × Option (RS α β) × Option String) :=
  let res := processGetResponse rs es resp
  if res.1.state = .error then
    (res.1, res.2.1, res.2.2.map fun sub => (sub, none, res.1.err))
  else
    (res.1, res.2.1, res.2.2.map fun sub => (sub, some res.1, none))

end Resgate

namespace Resgate

theorem lcsSpec_nil_left {α : Type} [DecidableEq α] (y : List α) : lcsSpec [] y = 0 := by
  simp [lcsSpec]

theorem lcsSpec_nil_right {α : Type} [DecidableEq α] (x : List α) : lcsSpec x [] = 0 := by
  cases x <;> simp [lcsSpec]

theorem lcsSpec_cons_cons {α : Type} [DecidableEq α] (x y : α) (xs ys : List α) :
    lcsSpec (x :: xs) (y :: ys) =
      if x = y then lcsSpec xs ys + 1
      else max (lcsSpec (x :: xs) ys) (lcsSpec xs (y :: ys)) := by
  rw [lcsSpec]

/-- Every common subsequence is no longer than `lcsSpec`. -/
theorem le_lcsSpec_of_sublist {α : Type} [DecidableEq α] :
    ∀ (x y z : List α), z.Sublist x → z.Sublist y → z.length ≤ lcsSpec x y
  | [], _, z, hx, _ => by
    simp [List.sublist_nil.mp hx]
  | _ :: _, [], z, _, hy => by
    simp [List.sublist_nil.mp hy]
  | _ :: _, _ :: _, [], _, _ => by
    simp
  | a :: x, b :: y, c :: z, hx, hy => by
    rw [lcsSpec_cons_cons]
    rcases List.sublist_cons_iff.mp hx with hx' | ⟨zx, hzx, hx'⟩
    · rcases List.sublist_cons_iff.mp hy with hy' | ⟨zy, hzy, hy'⟩
      · -- c :: z is a sublist of both tails
        by_cases hab : a = b
        · rw [if_pos hab]
          exact (le_lcsSpec_of_sublist x y (c :: z) hx' hy').trans (Nat.le_succ _)
        · rw [if_neg hab]
          exact le_trans (le_lcsSpec_of_sublist (a :: x) y (c :: z)
            (hx'.trans (List.sublist_cons_self a x)) hy') (le_max_left _ _)
      · -- the shared head equals b, with z <+ y, and c :: z <+ x
        obtain ⟨rfl, rfl⟩ := List.cons_eq_cons.mp hzy
        by_cases hab : a = c
        · rw [if_pos hab]
          have hzx' : List.Sublist z x := (List.sublist_cons_self c z).trans hx'
          simpa using Nat.succ_le_succ (le_lcsSpec_of_sublist x y z hzx' hy')
        · rw [if_neg hab]
          exact le_trans (le_lcsSpec_of_sublist x (c :: y) (c :: z) hx'
            (List.cons_sublist_cons.mpr hy')) (le_max_right _ _)
    · -- the shared head equals a, with z <+ x
      obtain ⟨rfl, rfl⟩ := List.cons_eq_cons.mp hzx
      rcases List.sublist_cons_iff.mp hy with hy' | ⟨zy, hzy, hy'⟩
      · by_cases hab : c = b
        · rw [if_pos hab]
          have hzy' : List.Sublist z y := (List.sublist_cons_self c z).trans hy'
          simpa using Nat.succ_le_succ (le_lcsSpec_of_sublist x y z hx' hzy')
        · rw [if_neg hab]
          exact le_trans (le_lcsSpec_of_sublist (c :: x) y (c :: z)
            (List.cons_sublist_cons.mpr hx') hy') (le_max_left _ _)
      · -- the shared head equals both a and b, so the heads match
        obtain ⟨rfl, rfl⟩ := List.cons_eq_cons.mp hzy
        rw [if_pos rfl]
        simpa using Nat.succ_le_succ (le_lcsSpec_of_sublist x y z hx' hy')
termination_by x y z => x.length + y.length

/-- `lcsSpec` is realized by some common subsequence. -/
theorem exists_common_of_length_lcsSpec {α : Type} [DecidableEq α] :
    ∀ (x y : List α), ∃ z : List α, z.Sublist x ∧ z.Sublist y ∧ z.length = lcsSpec x y
  | [], y => ⟨[], List.nil_sublist _, List.nil_sublist _, (lcsSpec_nil_left y).symm⟩
  | _ :: _, [] => ⟨[], List.nil_sublist _, List.nil_sublist _, (lcsSpec_nil_right _).symm⟩
  | a :: x, b :: y => by
    rw [lcsSpec_cons_cons]
    by_cases hab : a = b
    · rw [if_pos hab]
      obtain ⟨z, hzx, hzy, hzl⟩ := exists_common_of_length_lcsSpec x y
      subst hab
      exact ⟨a :: z, List.cons_sublist_cons.mpr hzx, List.cons_sublist_cons.mpr hzy,
        by simp [hzl]⟩
    · rw [if_neg hab]
      rcases le_or_lt (lcsSpec (a :: x) y) (lcsSpec x (b :: y)) with h | h
      · obtain ⟨z, hzx, hzy, hzl⟩ := exists_common_of_length_lcsSpec x (b :: y)
        exact ⟨z, hzx.trans (List.sublist_cons_self a x), hzy,
          by rw [hzl, Nat.max_eq_right h]⟩
      · obtain ⟨z, hzx, hzy, hzl⟩ := exists_common_of_length_lcsSpec (a :: x) y
        exact ⟨z, hzx, hzy.trans (List.sublist_cons_self b y),
          by rw [hzl, Nat.max_eq_left h.le]⟩
termination_by x y => x.length + y.length

/-- `lcsSpec` of the reversed lists equals `lcsSpec` of the lists: reversal is a
bijection on common subsequences. -/
theorem lcsSpec_reverse {α : Type} [DecidableEq α] (x y : List α) :
    lcsSpec x.reverse y.reverse = lcsSpec x y := by
  have key : ∀ u v : List α, lcsSpec u v ≤ lcsSpec u.reverse v.reverse := by
    intro u v
    obtain ⟨z, hzu, hzv, hzl⟩ := exists_common_of_length_lcsSpec u v
    calc lcsSpec u v = z.reverse.length := by simp [hzl]
    _ ≤ _ := le_lcsSpec_of_sublist _ _ _ hzu.reverse hzv.reverse
  refine le_antisymm ?_ (key x y)
  simpa using key x.reverse y.reverse

/-- Stripping a common left part adds its length to `lcsSpec`. -/
theorem lcsSpec_append_left {α : Type} [DecidableEq α] (p x y : List α) :
    lcsSpec (p ++ x) (p ++ y) = p.length + lcsSpec x y := by
  induction p with
  | nil => simp
  | cons a p ih =>
    rw [List.cons_append, List.cons_append, lcsSpec_cons_cons, if_pos rfl, ih,
      List.length_cons]
    omega

/-- Stripping a common right part adds its length to `lcsSpec`. -/
theorem lcsSpec_append_right {α : Type} [DecidableEq α] (x y q : List α) :
    lcsSpec (x ++ q) (y ++ q) = lcsSpec x y + q.length := by
  rw [← lcsSpec_reverse, List.reverse_append, List.reverse_append,
    lcsSpec_append_left, lcsSpec_reverse]
  simp [Nat.add_comm]

/-- A list's LCS with itself is its length. -/
theorem lcsSpec_self {α : Type} [DecidableEq α] (x : List α) : lcsSpec x x = x.length := by
  induction x with
  | nil => simp [lcsSpec_nil_left]
  | cons a x ih => simp [lcsSpec_cons_cons, ih]

/-! ## The matrix computes LCS lengths -/

theorem cMat_zero {α : Type} [DecidableEq α] [Inhabited α] (aa bb : List α) (j : Nat) :
    cMat aa bb 0 j = 0 := rfl

theorem cMat_succ_zero {α : Type} [DecidableEq α] [Inhabited α] (aa bb : List α) (i : Nat) :
    cMat aa bb (i + 1) 0 = 0 := rfl

theorem cMat_zero_right {α : Type} [DecidableEq α] [Inhabited α] (aa bb : List α) (i : Nat) :
    cMat aa bb i 0 = 0 := by
  cases i
  · exact cMat_zero aa bb 0
  · exact cMat_succ_zero aa bb _

theorem cMat_succ_succ {α : Type} [DecidableEq α] [Inhabited α] (aa bb : List α) (i j : Nat) :
    cMat aa bb (i + 1) (j + 1) =
      if aa.getD i default = bb.getD j default then cMat aa bb i j + 1
      else max (cMat aa bb (i + 1) j) (cMat aa bb i (j + 1)) := by
  by_cases h : aa.getD i default = bb.getD j default
  · simp [cMat, cMatRow, h]
  · simp [cMat, cMatRow, h]

theorem reverse_take_succ {α : Type} (l : List α) (i : Nat) (h : i < l.length) :
    (l.take (i + 1)).reverse = l[i] :: (l.take i).reverse := by
  rw [List.take_succ, List.getElem?_eq_getElem h]
  simp

/-- The matrix cell `c[i + w*j]` is the LCS length of the first `i` elements of
`aa` and the first `j` elements of `bb` (stated through `lcsSpec` on the reversed
prefixes, which is the form the fill recurrence produces directly). -/
theorem cMat_eq_lcsSpec {α : Type} [DecidableEq α] [Inhabited α] (aa bb : List α) :
    ∀ i j, i ≤ aa.length → j ≤ bb.length →
      cMat aa bb i j = lcsSpec (aa.take i).reverse (bb.take j).reverse := by
  intro i
  induction i with
  | zero => intro j _ _; simp [cMat_zero, lcsSpec_nil_left]
  | succ i ihi =>
    intro j
    induction j with
    | zero => intro _ _; simp [cMat_succ_zero, lcsSpec_nil_right]
    | succ j ihj =>
      intro hi hj
      have hi' : i < aa.length := by omega
      have hj' : j < bb.length := by omega
      rw [cMat_succ_succ, reverse_take_succ aa i hi', reverse_take_succ bb j hj',
        lcsSpec_cons_cons, List.getD_eq_getElem aa default hi',
        List.getD_eq_getElem bb default hj']
      by_cases h : aa[i] = bb[j]
      · rw [if_pos h, if_pos h, ihi j (by omega) (by omega)]
      · rw [if_neg h, if_neg h, ihi (j + 1) (by omega) hj, ihj hi (by omega),
          reverse_take_succ aa i hi', reverse_take_succ bb j hj']

/-! ## Applying diff events -/

theorem applyDiff_nil {α : Type} (l : List α) : applyDiff l [] = some l := rfl

theorem applyDiff_cons {α : Type} (l : List α) (e : REvent α) (evs : List (REvent α)) :
    applyDiff l (e :: evs) = (applyDiffEvent l e).bind fun l' => applyDiff l' evs := by
  cases h : applyDiffEvent l e <;> simp [applyDiff, List.foldlM_cons, h]

theorem applyDiff_append {α : Type} (l : List α) (e1 e2 : List (REvent α)) :
    applyDiff l (e1 ++ e2) = (applyDiff l e1).bind fun l' => applyDiff l' e2 := by
  induction e1 generalizing l with
  | nil => simp [applyDiff_nil]
  | cons e es ih =>
    rw [List.cons_append, applyDiff_cons, applyDiff_cons]
    cases applyDiffEvent l e <;> simp [ih]

theorem applyDiff_singleton {α : Type} (l : List α) (e : REvent α) :
    applyDiff l [e] = applyDiffEvent l e := by
  rw [applyDiff_cons]
  cases applyDiffEvent l e <;> simp [applyDiff_nil]

/-- Adding at the index right after `l₁` splices the value between `l₁` and `l₂`. -/
theorem applyDiffEvent_add_at {α : Type} (l₁ l₂ : List α) (v : α) :
    applyDiffEvent (l₁ ++ l₂) (.add (some ((l₁.length : Int), v))) =
      some (l₁ ++ v :: l₂) := by
  have h2 : (l₁.length : Int) ≤ ((l₁ ++ l₂).length : Int) := by
    simp [List.length_append]
  rw [applyDiffEvent, if_pos ⟨Int.ofNat_nonneg _, h2⟩]
  rw [Int.toNat_natCast, List.take_left' rfl, List.drop_left' rfl]

/-- Removing at the index right after `l₁` drops the element between `l₁` and `l₂`. -/
theorem applyDiffEvent_remove_at {α : Type} (l₁ l₂ : List α) (v : α) :
    applyDiffEvent (l₁ ++ v :: l₂) (.remove (some (l₁.length : Int))) =
      some (l₁ ++ l₂) := by
  have h2 : (l₁.length : Int) < ((l₁ ++ v :: l₂).length : Int) := by
    simp [List.length_append]
  rw [applyDiffEvent, if_pos ⟨Int.ofNat_nonneg _, h2⟩]
  rw [Int.toNat_natCast, List.take_left' rfl]
  have : l₁ ++ v :: l₂ = (l₁ ++ [v]) ++ l₂ := by simp
  rw [this, List.drop_left' (by simp)]

theorem emitAdds_length {α : Type} [Inhabited α] (bb : List α) (r : Nat)
    (adds : List (Nat × Int × Nat)) : (emitAdds bb r adds).length = adds.length := by
  induction adds with
  | nil => rfl
  | cons e rest ih =>
    obtain ⟨n, idxRec, rRec⟩ := e
    simp [emitAdds, ih]

theorem emitAdds_all_isAdd {α : Type} [Inhabited α] (bb : List α) (r : Nat)
    (adds : List (Nat × Int × Nat)) : ∀ e ∈ emitAdds bb r adds, e.isAdd = true := by
  induction adds with
  | nil => simp [emitAdds]
  | cons e rest ih =>
    obtain ⟨n, idxRec, rRec⟩ := e
    intro x hx
    rw [emitAdds] at hx
    rcases List.mem_append.mp hx with h | h
    · exact ih x h
    · simp only [List.mem_singleton] at h
      subst h
      rfl

/-! ## The backtracking loop -/

/-- The complete invariant of the backtracking loop, at state `(i, j)` with
`idx = i + s` and removes-so-far `r`: the first output component holds only remove
events and has length `i - c[i,j]`, the add records number `j - c[i,j]`, the final
`r` counts the emitted removes on top of the initial `r`, and — the heart of the
diff — for any prefix of length `s` and any suffix, the emitted removes followed
by the emitted adds rewrite `P ++ aa.take i ++ Q` into `P ++ bb.take j ++ Q` with
every index in bounds at the moment it is applied. -/
theorem backtrack_spec {α : Type} [DecidableEq α] [Inhabited α] (aa bb : List α) :
    ∀ (fuel i j r s : Nat) (rems : List (REvent α)) (adds : List (Nat × Int × Nat))
      (rT : Nat),
      i + j ≤ fuel → i ≤ aa.length → j ≤ bb.length →
      backtrack aa bb fuel i j ((i : Int) + (s : Int)) r = (rems, adds, rT) →
      (∀ e ∈ rems, e.isRemove = true) ∧
      rems.length + cMat aa bb i j = i ∧
      adds.length + cMat aa bb i j = j ∧
      rT = r + rems.length ∧
      ∀ P Q : List α, P.length = s →
        applyDiff (P ++ aa.take i ++ Q) (rems ++ emitAdds bb rT adds) =
          some (P ++ bb.take j ++ Q) := by
  intro fuel
  induction fuel with
  | zero =>
    intro i j r s rems adds rT hfuel hi hj hbt
    have hi0 : i = 0 := by omega
    have hj0 : j = 0 := by omega
    subst hi0; subst hj0
    simp only [backtrack, Prod.mk.injEq] at hbt
    obtain ⟨rfl, rfl, rfl⟩ := hbt
    refine ⟨by simp, by simp [cMat_zero], by simp [cMat_zero], by simp, ?_⟩
    intro P Q hP
    simp [applyDiff_nil, emitAdds]
  | succ fuel ih =>
    intro i j r s rems adds rT hfuel hi hj hbt
    simp only [backtrack] at hbt
    by_cases h1 : 0 < i ∧ 0 < j ∧ aa.getD (i - 1) default = bb.getD (j - 1) default
    · -- match branch
      rw [if_pos h1] at hbt
      obtain ⟨hi0, hj0, heq⟩ := h1
      obtain ⟨i', rfl⟩ : ∃ i', i = i' + 1 := ⟨i - 1, by omega⟩
      obtain ⟨j', rfl⟩ : ∃ j', j = j' + 1 := ⟨j - 1, by omega⟩
      simp only [Nat.add_sub_cancel] at hbt heq
      have hcast : ((i' + 1 : Nat) : Int) + (s : Int) - 1 = ((i' : Nat) : Int) + (s : Int) := by
        push_cast; ring
      rw [hcast] at hbt
      obtain ⟨IH1, IH2, IH3, IH4, IH5⟩ :=
        ih i' j' r s rems adds rT (by omega) (by omega) (by omega) hbt
      have hc : cMat aa bb (i' + 1) (j' + 1) = cMat aa bb i' j' + 1 := by
        rw [cMat_succ_succ, if_pos heq]
      have hi' : i' < aa.length := by omega
      have hj' : j' < bb.length := by omega
      have hget : aa[i'] = bb[j'] := by
        rwa [List.getD_eq_getElem aa default hi', List.getD_eq_getElem bb default hj'] at heq
      refine ⟨IH1, by omega, by omega, IH4, ?_⟩
      intro P Q hP
      have e1 : P ++ aa.take (i' + 1) ++ Q = P ++ aa.take i' ++ (aa[i'] :: Q) := by
        rw [List.take_succ, List.getElem?_eq_getElem hi']
        simp only [Option.toList_some, List.append_assoc, List.singleton_append]
      have e2 : P ++ bb.take (j' + 1) ++ Q = P ++ bb.take j' ++ (bb[j'] :: Q) := by
        rw [List.take_succ, List.getElem?_eq_getElem hj']
        simp only [Option.toList_some, List.append_assoc, List.singleton_append]
      rw [e1, e2, ← hget]
      exact IH5 P (aa[i'] :: Q) hP
    · rw [if_neg h1] at hbt
      by_cases h2 : 0 < j ∧ (i = 0 ∨ cMat aa bb i (j - 1) ≥ cMat aa bb (i - 1) j)
      · -- add branch
        rw [if_pos h2] at hbt
        obtain ⟨j', rfl⟩ : ∃ j', j = j' + 1 := ⟨j - 1, by omega⟩
        simp only [Nat.add_sub_cancel] at hbt
        rcases hres : backtrack aa bb fuel i j' ((i : Int) + (s : Int)) r
          with ⟨rems', adds', rT'⟩
        rw [hres] at hbt
        simp only [Prod.mk.injEq] at hbt
        obtain ⟨rfl, rfl, rfl⟩ := hbt
        obtain ⟨IH1, IH2, IH3, IH4, IH5⟩ :=
          ih i j' r s rems' adds' rT' (by omega) hi (by omega) hres
        have hcj : cMat aa bb i (j' + 1) = cMat aa bb i j' := by
          rcases Nat.eq_zero_or_pos i with rfl | hi0
          · simp [cMat_zero]
          · obtain ⟨i'', rfl⟩ : ∃ i'', i = i'' + 1 := ⟨i - 1, by omega⟩
            have hne : ¬(aa.getD i'' default = bb.getD j' default) := by
              intro hcontra
              exact h1 ⟨by omega, by omega, by simpa using hcontra⟩
            have hge : cMat aa bb (i'' + 1) j' ≥ cMat aa bb i'' (j' + 1) := by
              rcases h2.2 with h | h
              · omega
              · simpa using h
            rw [cMat_succ_succ, if_neg hne]
            exact Nat.max_eq_left hge
        refine ⟨IH1, by omega, ?_, IH4, ?_⟩
        · simp only [List.length_cons]
          omega
        · intro P Q hP
          have hj' : j' < bb.length := by omega
          rw [emitAdds, ← List.append_assoc, applyDiff_append, IH5 P Q hP,
            Option.some_bind, applyDiff_singleton]
          have hidx : (i : Int) + (s : Int) - (rT' : Int) + (r : Int) +
              ((adds'.length : Nat) : Int) = ((P ++ bb.take j').length : Int) := by
            have hlen : (P ++ bb.take j').length = s + j' := by
              simp [List.length_append, List.length_take, hP]
              omega
            rw [hlen]
            push_cast
            omega
          rw [hidx, List.getD_eq_getElem bb default hj', applyDiffEvent_add_at]
          have e2 : P ++ bb.take (j' + 1) ++ Q = (P ++ bb.take j') ++ (bb[j'] :: Q) := by
            rw [List.take_succ, List.getElem?_eq_getElem hj']
            simp only [Option.toList_some, List.append_assoc, List.singleton_append]
          rw [e2]
      · rw [if_neg h2] at hbt
        by_cases h3 : 0 < i ∧ (j = 0 ∨ cMat aa bb i (j - 1) < cMat aa bb (i - 1) j)
        · -- remove branch
          rw [if_pos h3] at hbt
          obtain ⟨i', rfl⟩ : ∃ i', i = i' + 1 := ⟨i - 1, by omega⟩
          simp only [Nat.add_sub_cancel] at hbt
          have hcast : ((i' + 1 : Nat) : Int) + (s : Int) - 1 =
              ((i' : Nat) : Int) + (s : Int) := by
            push_cast; ring
          rw [hcast] at hbt
          rcases hres : backtrack aa bb fuel i' j ((i' : Int) + (s : Int)) (r + 1)
            with ⟨rems', adds', rT'⟩
          rw [hres] at hbt
          simp only [Prod.mk.injEq] at hbt
          obtain ⟨rfl, rfl, rfl⟩ := hbt
          obtain ⟨IH1, IH2, IH3, IH4, IH5⟩ :=
            ih i' j (r + 1) s rems' adds' rT' (by omega) (by omega) hj hres
          have hci : cMat aa bb (i' + 1) j = cMat aa bb i' j := by
            rcases Nat.eq_zero_or_pos j with rfl | hj0
            · simp [cMat_zero_right]
            · obtain ⟨j'', rfl⟩ : ∃ j'', j = j'' + 1 := ⟨j - 1, by omega⟩
              have hne : ¬(aa.getD i' default = bb.getD j'' default) := by
                intro hcontra
                exact h1 ⟨by omega, by omega, by simpa using hcontra⟩
              have hlt : cMat aa bb (i' + 1) j'' < cMat aa bb i' (j'' + 1) := by
                rcases h3.2 with h | h
                · omega
                · simpa using h
              rw [cMat_succ_succ, if_neg hne]
              exact Nat.max_eq_right hlt.le
          refine ⟨?_, ?_, by omega, by simp [IH4]; omega, ?_⟩
          · intro e he
            rcases List.mem_cons.mp he with rfl | he'
            · rfl
            · exact IH1 e he'
          · simp only [List.length_cons]
            omega
          · intro P Q hP
            have hi' : i' < aa.length := by omega
            have e1 : P ++ aa.take (i' + 1) ++ Q = (P ++ aa.take i') ++ (aa[i'] :: Q) := by
              rw [List.take_succ, List.getElem?_eq_getElem hi']
              simp only [Option.toList_some, List.append_assoc, List.singleton_append]
            rw [e1, List.cons_append, applyDiff_cons]
            have hcast2 : ((i' : Nat) : Int) + (s : Int) =
                (((P ++ aa.take i').length : Nat) : Int) := by
              have hlen : (P ++ aa.take i').length = s + i' := by
                simp [List.length_append, List.length_take, hP]
                omega
              rw [hlen]
              push_cast; ring
            rw [hcast2, applyDiffEvent_remove_at, Option.some_bind]
            exact IH5 P Q hP
        · -- loop exit: i = j = 0
          rw [if_neg h3] at hbt
          have hij : i = 0 ∧ j = 0 := by
            by_contra hcon
            rcases Nat.eq_zero_or_pos i with hi' | hi'
            · rcases Nat.eq_zero_or_pos j with hj' | hj'
              · exact hcon ⟨hi', hj'⟩
              · exact h2 ⟨hj', Or.inl hi'⟩
            · rcases Nat.eq_zero_or_pos j with hj' | hj'
              · exact h3 ⟨hi', Or.inl hj'⟩
              · rcases le_or_lt (cMat aa bb (i - 1) j) (cMat aa bb i (j - 1)) with hc | hc
                · exact h2 ⟨hj', Or.inr hc⟩
                · exact h3 ⟨hi', Or.inr hc⟩
          obtain ⟨rfl, rfl⟩ := hij
          simp only [Prod.mk.injEq] at hbt
          obtain ⟨rfl, rfl, rfl⟩ := hbt
          refine ⟨by simp, by simp [cMat_zero], by simp [cMat_zero], by simp, ?_⟩
          intro P Q hP
          simp [applyDiff_nil, emitAdds]

/-! ## The trimming loops -/

theorem prefLen_le_left {α : Type} [DecidableEq α] :
    ∀ a b : List α, prefLen a b ≤ a.length
  | [], _ => by simp [prefLen]
  | _ :: _, [] => by simp [prefLen]
  | x :: xs, y :: ys => by
    by_cases h : x = y
    · simpa [prefLen, h] using prefLen_le_left xs ys
    · simp [prefLen, h]

theorem prefLen_le_right {α : Type} [DecidableEq α] :
    ∀ a b : List α, prefLen a b ≤ b.length
  | [], _ => by simp [prefLen]
  | _ :: _, [] => by simp [prefLen]
  | x :: xs, y :: ys => by
    by_cases h : x = y
    · simpa [prefLen, h] using prefLen_le_right xs ys
    · simp [prefLen, h]

/-- The common prefix really is common. -/
theorem take_prefLen_eq {α : Type} [DecidableEq α] :
    ∀ a b : List α, a.take (prefLen a b) = b.take (prefLen a b)
  | [], _ => by simp [prefLen]
  | _ :: _, [] => by simp [prefLen]
  | x :: xs, y :: ys => by
    by_cases h : x = y
    · subst h
      simp [prefLen, List.take_succ_cons, take_prefLen_eq xs ys]
    · simp [prefLen, h]

theorem prefLen_self {α : Type} [DecidableEq α] : ∀ a : List α, prefLen a a = a.length
  | [] => rfl
  | x :: xs => by simp [prefLen, prefLen_self xs]

/-- What the suffix-trimming loop guarantees: the number of trimmed elements fits
in both remainders, and the trimmed tails agree. -/
theorem sufTrimLen_spec {α : Type} [DecidableEq α] [Inhabited α] (a b : List α) (s : Nat) :
    ∀ m n, m ≤ a.length → n ≤ b.length →
      sufTrimLen a b s m n ≤ m - s ∧ sufTrimLen a b s m n ≤ n - s ∧
      (a.take m).drop (m - sufTrimLen a b s m n) =
        (b.take n).drop (n - sufTrimLen a b s m n) := by
  intro m
  induction m with
  | zero =>
    intro n _ hn
    refine ⟨by simp [sufTrimLen], by simp [sufTrimLen], ?_⟩
    rw [sufTrimLen]
    rw [List.drop_eq_nil_of_le (by simp), List.drop_eq_nil_of_le (by rw [List.length_take]; omega)]
  | succ m ihm =>
    intro n hm hn
    rw [sufTrimLen]
    by_cases hg : s < m + 1 ∧ s < n ∧ a.getD m default = b.getD (n - 1) default
    · rw [if_pos hg]
      obtain ⟨hsm, hsn, hval⟩ := hg
      obtain ⟨n', rfl⟩ : ∃ n', n = n' + 1 := ⟨n - 1, by omega⟩
      simp only [Nat.add_sub_cancel] at hval
      simp only [Nat.add_sub_cancel, Nat.succ_sub_succ, Nat.sub_zero]
      obtain ⟨ih1, ih2, ih3⟩ := ihm n' (by omega) (by omega)
      have hma : m < a.length := by omega
      have hnb : n' < b.length := by omega
      refine ⟨by omega, by omega, ?_⟩
      have hta : a.take (m + 1) = a.take m ++ [a[m]] := by
        rw [List.take_succ, List.getElem?_eq_getElem hma, Option.toList_some]
      have htb : b.take (n' + 1) = b.take n' ++ [b[n']] := by
        rw [List.take_succ, List.getElem?_eq_getElem hnb, Option.toList_some]
      rw [hta, htb]
      rw [List.drop_append_of_le_length (by rw [List.length_take]; omega),
        List.drop_append_of_le_length (by rw [List.length_take]; omega), ih3]
      have : a[m] = b[n'] := by
        rwa [List.getD_eq_getElem a default hma, List.getD_eq_getElem b default hnb] at hval
      rw [this]
    · rw [if_neg hg]
      refine ⟨by simp, by simp, ?_⟩
      rw [List.drop_eq_nil_of_le (by rw [List.length_take]; omega),
        List.drop_eq_nil_of_le (by rw [List.length_take]; omega)]

/-! ## C1: correctness of the diff engine -/

/-- C1: for every pair of value sequences `a` and `b`, `lcs a b` consists of
remove events all of which precede all of its add events, its total length
satisfies `|lcs a b| + 2·|LCS(a,b)| = |a| + |b|` — in particular it is empty
when `a` equals `b` elementwise — and applying its events in order to `a`,
each remove deleting at its index and each add inserting at its index (with
every index in bounds at the moment it is applied), yields exactly `b`. -/
theorem lcs_correct {α : Type} [DecidableEq α] [Inhabited α] (a b : List α) :
    (∃ rems adds : List (REvent α), lcs a b = rems ++ adds ∧
      (∀ e ∈ rems, e.isRemove = true) ∧ (∀ e ∈ adds, e.isAdd = true)) ∧
    (lcs a b).length + 2 * lcsSpec a b = a.length + b.length ∧
    (a = b → lcs a b = []) ∧
    applyDiff a (lcs a b) = some b := by
  by_cases hab : prefLen a b = a.length ∧ prefLen a b = b.length
  · -- the sequences are equal: the diff is empty
    have hab' : a = b := by
      have h1 := take_prefLen_eq a b
      rw [hab.1, List.take_length] at h1
      rw [show a.length = b.length from by rw [← hab.1, hab.2], List.take_length] at h1
      exact h1
    have hlcs : lcs a b = [] := by
      simp only [lcs]
      rw [if_pos hab]
    subst hab'
    refine ⟨⟨[], [], by simp [hlcs], by simp, by simp⟩, ?_, fun _ => hlcs, ?_⟩
    · rw [hlcs, lcsSpec_self]
      simp [Nat.two_mul]
    · rw [hlcs]
      exact applyDiff_nil a
  · -- proper diff
    have hsa : prefLen a b ≤ a.length := prefLen_le_left a b
    have hsb : prefLen a b ≤ b.length := prefLen_le_right a b
    obtain ⟨hta, htb, hsuf⟩ :=
      sufTrimLen_spec a b (prefLen a b) a.length b.length le_rfl le_rfl
    rw [List.take_length, List.take_length] at hsuf
    -- names for the pieces
    set s := prefLen a b with hs
    set t := sufTrimLen a b s a.length b.length with ht
    set M := a.length - t - s with hM
    set N := b.length - t - s with hN
    set aa := (a.drop s).take M with haa
    set bb := (b.drop s).take N with hbb
    have haa_len : aa.length = M := by
      rw [haa, List.length_take, List.length_drop]
      omega
    have hbb_len : bb.length = N := by
      rw [hbb, List.length_take, List.length_drop]
      omega
    have hlcs : lcs a b =
        (backtrack aa bb (M + N) M N ((M : Int) + (s : Int)) 0).1 ++
          emitAdds bb (backtrack aa bb (M + N) M N ((M : Int) + (s : Int)) 0).2.2
            (backtrack aa bb (M + N) M N ((M : Int) + (s : Int)) 0).2.1 := by
      simp only [lcs]
      rw [if_neg hab]
    rcases hres : backtrack aa bb (M + N) M N ((M : Int) + (s : Int)) 0
      with ⟨rems, adds, rT⟩
    rw [hres] at hlcs
    have hlcs2 : lcs a b = rems ++ emitAdds bb rT adds := hlcs
    obtain ⟨BT1, BT2, BT3, BT4, BT5⟩ :=
      backtrack_spec aa bb (M + N) M N 0 s rems adds rT le_rfl (by omega) (by omega) hres
    have htaa : aa.take M = aa := by rw [← haa_len, List.take_length]
    have htbb : bb.take N = bb := by rw [← hbb_len, List.take_length]
    rw [htaa, htbb] at BT5
    -- decomposition of a and b around the trimmed middle
    have hPa : (a.take s).length = s := by
      rw [List.length_take]; omega
    have hQdef : a.drop (s + M) = b.drop (s + N) := by
      have e1 : s + M = a.length - t := by omega
      have e2 : s + N = b.length - t := by omega
      rw [e1, e2, hsuf]
    have hdeca : a = a.take s ++ aa ++ a.drop (s + M) := by
      rw [haa, ← List.take_add, List.take_append_drop]
    have hdecb : b = b.take s ++ bb ++ b.drop (s + N) := by
      rw [hbb, ← List.take_add, List.take_append_drop]
    have hPab : a.take s = b.take s := take_prefLen_eq a b
    have happly : applyDiff a (lcs a b) = some b := by
      rw [hlcs2]
      conv_lhs => rw [hdeca]
      rw [BT5 (a.take s) (a.drop (s + M)) hPa]
      rw [hPab, hQdef, ← hdecb]
    have hQlen : (a.drop (s + M)).length = t := by
      rw [List.length_drop]; omega
    have hcM : cMat aa bb M N = lcsSpec aa bb := by
      rw [cMat_eq_lcsSpec aa bb M N (by omega) (by omega), htaa, htbb, lcsSpec_reverse]
    have hlcsSpec : lcsSpec a b = s + lcsSpec aa bb + t := by
      conv_lhs => rw [hdeca, hdecb]
      rw [← hQdef]
      rw [hPab, lcsSpec_append_right, lcsSpec_append_left, List.length_take]
      rw [hQlen]
      omega
    refine ⟨⟨rems, emitAdds bb rT adds, hlcs2, BT1, emitAdds_all_isAdd bb rT adds⟩, ?_,
      fun hab'' => absurd ⟨by rw [hs, hab'', prefLen_self],
        by rw [hs, hab'', prefLen_self]⟩ hab,
      happly⟩
    have hlen : (lcs a b).length = rems.length + adds.length := by
      rw [hlcs2, List.length_append, emitAdds_length]
    have hal : a.length = s + M + t := by omega
    have hbl : b.length = s + N + t := by omega
    rw [hlen, hlcsSpec, ← hcM, hal, hbl]
    omega

/-! ## Association list (Go map) laws -/

theorem mapGet_mapDelete_self {g : Type} (m : List (String × g)) (k : String) :
    mapGet (mapDelete m k) k = none := by
  induction m with
  | nil => rfl
  | cons p rest ih =>
    obtain ⟨k0, v⟩ := p
    by_cases h : k0 = k
    · simpa [mapDelete, List.filter_cons, h] using ih
    · simpa [mapDelete, List.filter_cons, h, mapGet] using ih

theorem mapGet_mapDelete_ne {g : Type} (m : List (String × g)) (k k' : String)
    (h : k' ≠ k) : mapGet (mapDelete m k) k' = mapGet m k' := by
  induction m with
  | nil => rfl
  | cons p rest ih =>
    obtain ⟨k0, v⟩ := p
    by_cases h0 : k0 = k
    · subst h0
      simp [mapDelete, List.filter_cons, mapGet, Ne.symm h] at *
      exact ih
    · by_cases h1 : k0 = k'
      · simp [mapDelete, List.filter_cons, mapGet, h0, h1, h]
      · simp [mapDelete, List.filter_cons, mapGet, h0, h1] at *
        exact ih

theorem mapGet_mapSet_self {g : Type} (m : List (String × g)) (k : String) (v : g) :
    mapGet (mapSet m k v) k = some v := by
  simp [mapSet, mapGet]

theorem mapGet_mapSet_ne {g : Type} (m : List (String × g)) (k k' : String) (v : g)
    (h : k' ≠ k) : mapGet (mapSet m k v) k' = mapGet m k' := by
  simp [mapSet, mapGet, Ne.symm h, mapGet_mapDelete_ne m k k' h]

/-! ## C3: scenario S5 -/

/-- C3 counterexample: with old [A,B,C,D] and new [A,X,C,Y,D] — A,B,C,D,X,Y as
0,1,2,3,10,11 — `lcs` does NOT produce exactly add(idx 1, X) then add(idx 3, Y):
B is in the old collection and not the new one, so a remove must be emitted. -/
theorem lcs_s5_counterexample :
    lcs ([0, 1, 2, 3] : List Nat) [0, 10, 2, 11, 3] ≠
      [.add (some (1, 10)), .add (some (3, 11))] := by
  decide

/-- C3 amended: on old [A,B,C,D] and new [A,X,C,Y,D] `lcs` produces exactly
remove(idx 1), add(idx 1, X), add(idx 3, Y), each index addressing the mutating
sequence at the time its event is applied — applying the three events in order to
the old collection yields the new one. -/
theorem lcs_s5_amended :
    lcs ([0, 1, 2, 3] : List Nat) [0, 10, 2, 11, 3] =
      [.remove (some 1), .add (some (1, 10)), .add (some (3, 11))] ∧
    applyDiff ([0, 1, 2, 3] : List Nat) (lcs [0, 1, 2, 3] [0, 10, 2, 11, 3]) =
      some [0, 10, 2, 11, 3] := by
  decide

/-! ## C8: events before load; reaccess -/

/-- C8: while a D's state is at most Requested, `handleEvent` drops every event
whose name is not "reaccess" — no cache mutation, no parent change, no
notification — while a reaccess event is forwarded to every subscriber whatever
the state of the D. -/
theorem handleEvent_requested_drops {α β : Type} [DecidableEq α] (rs : RS α β)
    (es : ES α β) (r : ResourceEvent α)
    (hstate : rs.state.toByte ≤ SubState.requested.toByte) :
    (r.ev.name ≠ "reaccess" → handleEvent rs es r = (rs, es, [])) ∧
    ∀ (rs' : RS α β) (r' : ResourceEvent α), r'.ev = .other "reaccess" →
      handleEvent rs' es r' = (rs', es, rs'.subs.map fun sub => (sub, r')) := by
  constructor
  · intro hname
    simp only [handleEvent]
    rw [if_pos ⟨hstate, hname⟩]
  · intro rs' r' hev
    simp [handleEvent, hev, REvent.name]

/-- C8 witness: a delete event on a Requested-state D with one subscriber is
dropped. -/
theorem handleEvent_requested_drops_witness :
    handleEvent (α := Nat) (β := Nat) {query := "", state := .requested, subs := [1]}
        {} {ev := .delete} =
      ({query := "", state := .requested, subs := [1]}, {}, []) :=
  (handleEvent_requested_drops {query := "", state := .requested, subs := [1]} {}
    {ev := .delete} (by decide)).1 (by decide)

/-! ## C2: events during reset -/

/-- C2 counterexample: a delete event arriving while `resetting == true` is NOT
applied — with one subscriber and Model state, `handleEvent` leaves the D
unchanged (subscriber still present, nothing unregistered) and notifies nobody,
where the claim requires the subscribers to be drained and notified and the D
unregistered. -/
theorem handleEvent_delete_during_reset_counterexample :
    handleEvent (α := Nat) (β := Nat)
        {query := "q", state := .model, subs := [7], resetting := true}
        {queries := [("q", {query := "q", state := .model, subs := [7], resetting := true})],
                     count := 1}
        {ev := .delete} =
      ({query := "q", state := .model, subs := [7], resetting := true},
        {queries := [("q", {query := "q", state := .model, subs := [7], resetting := true})],
                     count := 1},
        []) := by
  decide

/-- C2 amended: while `resetting == true`, `handleEvent` drops change, add,
remove AND delete alike: no state change, no parent change, no notification.
(The synthetic delete of reset recovery is applied only because `resetting` is
cleared before `processResetGetResponse` runs.) -/
theorem handleEvent_resetting_drops {α β : Type} [DecidableEq α] (rs : RS α β)
    (es : ES α β) (r : ResourceEvent α) (hreset : rs.resetting = true)
    (hkind : r.ev.isSwitchCase = true) :
    handleEvent rs es r = (rs, es, []) := by
  simp only [handleEvent]
  by_cases hguard : rs.state.toByte ≤ SubState.requested.toByte ∧ r.ev.name ≠ "reaccess"
  · rw [if_pos hguard]
  · rw [if_neg hguard]
    cases hev : r.ev with
    | change p => simp [hreset]
    | add p => simp [hreset]
    | remove p => simp [hreset]
    | delete => simp [hreset]
    | other n =>
      rw [hev] at hkind
      exact absurd hkind (by simp [REvent.isSwitchCase])

/-- C2 amended witness: an add event during reset on a Collection-state D is
dropped. -/
theorem handleEvent_resetting_drops_witness :
    handleEvent (α := Nat) (β := Nat)
        {query := "", state := .collection, subs := [2], resetting := true,
          collection := [5]} {} {ev := .add (some (0, 9))} =
      ({query := "", state := .collection, subs := [2], resetting := true,
        collection := [5]}, {}, []) :=
  handleEvent_resetting_drops _ _ _ (by decide) (by decide)

/-! ## C6: model change application -/

theorem mapGet_eq_none_of_not_mem {g : Type} :
    ∀ (m : List (String × g)) (k : String), k ∉ m.map Prod.fst → mapGet m k = none
  | [], _, _ => rfl
  | (k0, v) :: rest, k, h => by
    have hne : ¬ k0 = k := fun he => h (by simp [he])
    simp [mapGet, hne, mapGet_eq_none_of_not_mem rest k (fun hm => h (by simp [hm]))]

/-- When every entry either equals the current model value or deletes an absent
key, the props loop changes nothing and nothing survives. -/
theorem applyProps_noop {α : Type} [DecidableEq α] (m : List (String × α)) :
    ∀ props : List (String × CVal α),
      (∀ kv ∈ props, (kv.2 = CVal.deleteSentinel ∧ mapGet m kv.1 = none) ∨
        (∃ w, kv.2 = CVal.plain w ∧ mapGet m kv.1 = some w)) →
      applyProps m props = (m, []) := by
  intro props
  induction props with
  | nil => intro _; rfl
  | cons kv rest ih =>
    intro hall
    obtain ⟨k, v⟩ := kv
    have hrest := fun kv hkv => hall kv (List.mem_cons_of_mem _ hkv)
    rcases hall (k, v) (by simp) with ⟨hv, hget⟩ | ⟨w, hv, hget⟩
    · simp only at hv hget
      subst hv
      simp [applyProps, hget, ih hrest]
    · simp only at hv hget
      subst hv
      simp [applyProps, hget, ih hrest]

/-- The value of the new model map at each key: a surviving or dropped Delete
yields absence or the old value, a written or dropped plain value yields that
value, and keys outside the props keep their old value. -/
theorem applyProps_get {α : Type} [DecidableEq α] :
    ∀ (props : List (String × CVal α)) (m : List (String × α)),
      (props.map Prod.fst).Nodup →
      ∀ k, mapGet (applyProps m props).1 k =
        match mapGet props k with
        | some .deleteSentinel => none
        | some (.plain w) => some w
        | none => mapGet m k := by
  intro props
  induction props with
  | nil => intro m _ k; rfl
  | cons kv rest ih =>
    intro m hnd k
    obtain ⟨k0, v0⟩ := kv
    have hnd2 : k0 ∉ rest.map Prod.fst ∧ (rest.map Prod.fst).Nodup := by
      rw [List.map_cons] at hnd
      exact List.nodup_cons.mp hnd
    obtain ⟨hk0, hndrest⟩ := hnd2
    by_cases hk : k0 = k
    · subst hk
      have hrest0 : mapGet rest k0 = none := mapGet_eq_none_of_not_mem rest k0 hk0
      cases v0 with
      | deleteSentinel =>
        cases hg0 : mapGet m k0 with
        | some w0 =>
          have happ : (applyProps m ((k0, CVal.deleteSentinel) :: rest)).1 =
              (applyProps (mapDelete m k0) rest).1 := by
            simp only [applyProps, hg0]
          rw [happ, ih (mapDelete m k0) hndrest k0, hrest0, mapGet_mapDelete_self]
          simp [mapGet]
        | none =>
          have happ : (applyProps m ((k0, CVal.deleteSentinel) :: rest)).1 =
              (applyProps m rest).1 := by
            simp only [applyProps, hg0]
          rw [happ, ih m hndrest k0, hrest0, hg0]
          simp [mapGet]
      | plain w0 =>
        cases hg0 : mapGet m k0 with
        | some cur =>
          by_cases hc : cur = w0
          · subst hc
            have happ : (applyProps m ((k0, CVal.plain cur) :: rest)).1 =
                (applyProps m rest).1 := by
              simp [applyProps, hg0]
            rw [happ, ih m hndrest k0, hrest0, hg0]
            simp [mapGet]
          · have happ : (applyProps m ((k0, CVal.plain w0) :: rest)).1 =
                (applyProps (mapSet m k0 w0) rest).1 := by
              simp only [applyProps, hg0, if_neg hc]
            rw [happ, ih (mapSet m k0 w0) hndrest k0, hrest0, mapGet_mapSet_self]
            simp [mapGet]
        | none =>
          have happ : (applyProps m ((k0, CVal.plain w0) :: rest)).1 =
              (applyProps (mapSet m k0 w0) rest).1 := by
            simp only [applyProps, hg0]
          rw [happ, ih (mapSet m k0 w0) hndrest k0, hrest0, mapGet_mapSet_self]
          simp [mapGet]
    · have hne : k ≠ k0 := fun he => hk he.symm
      have hcons : mapGet ((k0, v0) :: rest) k = mapGet rest k := by
        simp [mapGet, hk]
      cases v0 with
      | deleteSentinel =>
        cases hg0 : mapGet m k0 with
        | some w0 =>
          have happ : (applyProps m ((k0, CVal.deleteSentinel) :: rest)).1 =
              (applyProps (mapDelete m k0) rest).1 := by
            simp only [applyProps, hg0]
          rw [happ, ih (mapDelete m k0) hndrest k, hcons,
            mapGet_mapDelete_ne m k0 k hne]
        | none =>
          have happ : (applyProps m ((k0, CVal.deleteSentinel) :: rest)).1 =
              (applyProps m rest).1 := by
            simp only [applyProps, hg0]
          rw [happ, ih m hndrest k, hcons]
      | plain w0 =>
        cases hg0 : mapGet m k0 with
        | some cur =>
          by_cases hc : cur = w0
          · subst hc
            have happ : (applyProps m ((k0, CVal.plain cur) :: rest)).1 =
                (applyProps m rest).1 := by
              simp [applyProps, hg0]
            rw [happ, ih m hndrest k, hcons]
          · have happ : (applyProps m ((k0, CVal.plain w0) :: rest)).1 =
                (applyProps (mapSet m k0 w0) rest).1 := by
              simp only [applyProps, hg0, if_neg hc]
            rw [happ, ih (mapSet m k0 w0) hndrest k, hcons,
              mapGet_mapSet_ne m k0 k w0 hne]
        | none =>
          have happ : (applyProps m ((k0, CVal.plain w0) :: rest)).1 =
              (applyProps (mapSet m k0 w0) rest).1 := by
            simp only [applyProps, hg0]
          rw [happ, ih (mapSet m k0 w0) hndrest k, hcons,
            mapGet_mapSet_ne m k0 k w0 hne]

/-- The survivor filter only reads props keys, so maps agreeing outside `k0`
filter alike when `k0` is not a props key. -/
theorem filter_props_congr {α : Type} [DecidableEq α] (rest : List (String × CVal α))
    (m m' : List (String × α)) (k0 : String) (hk0 : k0 ∉ rest.map Prod.fst)
    (hagree : ∀ k, k ≠ k0 → mapGet m' k = mapGet m k) :
    (rest.filter fun kv => match kv.2 with
      | .deleteSentinel => (mapGet m' kv.1).isSome
      | .plain w => decide (mapGet m' kv.1 ≠ some w)) =
    rest.filter fun kv => match kv.2 with
      | .deleteSentinel => (mapGet m kv.1).isSome
      | .plain w => decide (mapGet m kv.1 ≠ some w) := by
  apply List.filter_congr
  intro kv hkv
  have hne : kv.1 ≠ k0 := fun he => hk0 (he ▸ List.mem_map_of_mem Prod.fst hkv)
  obtain ⟨k, v⟩ := kv
  cases v <;> simp [hagree k hne]

/-- The surviving props are exactly the original props filtered to the entries
that change something: a Delete of a present key, or a plain value different from
the current one. -/
theorem applyProps_surv {α : Type} [DecidableEq α] :
    ∀ (props : List (String × CVal α)) (m : List (String × α)),
      (props.map Prod.fst).Nodup →
      (applyProps m props).2 = props.filter fun kv =>
        match kv.2 with
        | .deleteSentinel => (mapGet m kv.1).isSome
        | .plain w => decide (mapGet m kv.1 ≠ some w) := by
  intro props
  induction props with
  | nil => intro m _; rfl
  | cons kv rest ih =>
    intro m hnd
    obtain ⟨k0, v0⟩ := kv
    have hnd2 : k0 ∉ rest.map Prod.fst ∧ (rest.map Prod.fst).Nodup := by
      rw [List.map_cons] at hnd
      exact List.nodup_cons.mp hnd
    obtain ⟨hk0, hndrest⟩ := hnd2
    rw [List.filter_cons]
    cases v0 with
    | deleteSentinel =>
      cases hg0 : mapGet m k0 with
      | some w0 =>
        have happ : (applyProps m ((k0, CVal.deleteSentinel) :: rest)).2 =
            (k0, CVal.deleteSentinel) :: (applyProps (mapDelete m k0) rest).2 := by
          simp only [applyProps, hg0]
        rw [happ, ih (mapDelete m k0) hndrest,
          filter_props_congr rest m (mapDelete m k0) k0 hk0
            (fun k hk => mapGet_mapDelete_ne m k0 k hk)]
        simp [hg0]
      | none =>
        have happ : (applyProps m ((k0, CVal.deleteSentinel) :: rest)).2 =
            (applyProps m rest).2 := by
          simp only [applyProps, hg0]
        rw [happ, ih m hndrest]
        simp [hg0]
    | plain w0 =>
      cases hg0 : mapGet m k0 with
      | some cur =>
        by_cases hc : cur = w0
        · subst hc
          have happ : (applyProps m ((k0, CVal.plain cur) :: rest)).2 =
              (applyProps m rest).2 := by
            simp [applyProps, hg0]
          rw [happ, ih m hndrest]
          simp [hg0]
        · have happ : (applyProps m ((k0, CVal.plain w0) :: rest)).2 =
              (k0, CVal.plain w0) :: (applyProps (mapSet m k0 w0) rest).2 := by
            simp only [applyProps, hg0]
            rw [if_neg hc]
          rw [happ, ih (mapSet m k0 w0) hndrest,
            filter_props_congr rest m (mapSet m k0 w0) k0 hk0
              (fun k hk => mapGet_mapSet_ne m k0 k w0 hk)]
          simp [hg0, hc]
      | none =>
        have happ : (applyProps m ((k0, CVal.plain w0) :: rest)).2 =
            (k0, CVal.plain w0) :: (applyProps (mapSet m k0 w0) rest).2 := by
          simp only [applyProps, hg0]
        rw [happ, ih (mapSet m k0 w0) hndrest,
          filter_props_congr rest m (mapSet m k0 w0) k0 hk0
            (fun k hk => mapGet_mapSet_ne m k0 k w0 hk)]
        simp [hg0]

/-- C6: on a Model-state, non-resetting D, a change event all of whose entries
either equal the current model value or are Delete sentinels for absent keys
leaves the cached model unchanged and produces no subscriber notification;
otherwise the model is replaced by a new map — pointwise: a surviving Delete
removes its key, a surviving plain value is written, all other keys keep their
old value — and every subscriber is notified of the event stamped with
`Changed` = the surviving entries and `OldValues` = the previous map. -/
theorem handleEvent_change_spec {α β : Type} [DecidableEq α] (rs : RS α β)
    (es : ES α β) (r : ResourceEvent α) (props : List (String × CVal α))
    (hstate : rs.state = .model) (hreset : rs.resetting = false)
    (hev : r.ev = .change (some props)) (hnd : (props.map Prod.fst).Nodup) :
    ((∀ kv ∈ props, (kv.2 = CVal.deleteSentinel ∧ mapGet rs.model kv.1 = none) ∨
        (∃ w, kv.2 = CVal.plain w ∧ mapGet rs.model kv.1 = some w)) →
      handleEvent rs es r = (rs, es, [])) ∧
    (¬ (∀ kv ∈ props, (kv.2 = CVal.deleteSentinel ∧ mapGet rs.model kv.1 = none) ∨
        (∃ w, kv.2 = CVal.plain w ∧ mapGet rs.model kv.1 = some w)) →
      ∃ m' : List (String × α),
        handleEvent rs es r =
          ({rs with model := m'}, es,
            rs.subs.map fun sub => (sub,
              {r with
                changed := props.filter fun kv =>
                  match kv.2 with
                  | .deleteSentinel => (mapGet rs.model kv.1).isSome
                  | .plain w => decide (mapGet rs.model kv.1 ≠ some w),
                oldValues := some rs.model})) ∧
        ∀ k, mapGet m' k =
          match mapGet props k with
          | some .deleteSentinel => none
          | some (.plain w) => some w
          | none => mapGet rs.model k) := by
  have hguard : ¬ (rs.state.toByte ≤ SubState.requested.toByte ∧
      r.ev.name ≠ "reaccess") := by
    rw [hstate]
    simp [SubState.toByte]
  constructor
  · intro hnoop
    simp only [handleEvent, hev]
    rw [if_neg (by rw [← hev]; exact hguard)]
    rw [hreset]
    simp only [Bool.false_eq_true, if_false]
    rw [handleEventChange]
    rw [if_neg (by rw [hstate]; simp)]
    simp [applyProps_noop rs.model props hnoop]
  · intro hchange
    refine ⟨(applyProps rs.model props).1, ?_, ?_⟩
    · simp only [handleEvent, hev]
      rw [if_neg (by rw [← hev]; exact hguard)]
      rw [hreset]
      simp only [Bool.false_eq_true, if_false]
      rw [handleEventChange]
      rw [if_neg (by rw [hstate]; simp)]
      have hsurv := applyProps_surv props rs.model hnd
      have hne : (applyProps rs.model props).2 ≠ [] := by
        rw [hsurv]
        push_neg at hchange
        obtain ⟨kv, hkv, hbad⟩ := hchange
        have hp : (match kv.2 with
            | CVal.deleteSentinel => (mapGet rs.model kv.1).isSome
            | CVal.plain w => decide (mapGet rs.model kv.1 ≠ some w)) = true := by
          obtain ⟨k, v⟩ := kv
          cases v with
          | deleteSentinel =>
            have hnn : mapGet rs.model k ≠ none := hbad.1 rfl
            simpa [Option.isSome_iff_ne_none] using hnn
          | plain w =>
            have hns : mapGet rs.model k ≠ some w := hbad.2 w rfl
            simpa using hns
        intro hnil
        have : kv ∈ props.filter fun kv => match kv.2 with
            | CVal.deleteSentinel => (mapGet rs.model kv.1).isSome
            | CVal.plain w => decide (mapGet rs.model kv.1 ≠ some w) :=
          List.mem_filter.mpr ⟨hkv, hp⟩
        rw [hnil] at this
        exact absurd this (List.not_mem_nil kv)
      simp only [Option.getD_some]
      rw [if_neg hne]
      simp [hsurv]
      exact ⟨hreset, fun a _ => hev⟩
    · intro k
      exact applyProps_get props rs.model hnd k

/-- C6 witness: scenario S1 — model ``a:1, b:2``, change ``a:1, c:3``; the change
is not a no-op, the new model is ``a:1, b:2, c:3``, and the notified event
carries `Changed = [c:3]` and `OldValues` = the previous map. -/
theorem handleEvent_change_spec_witness :
    handleEvent (β := Nat)
        {query := "", state := .model, subs := [1], model := [("a", 1), ("b", 2)]} {}
        {ev := .change (some [("a", .plain 1), ("c", .plain 3)])} =
      ({query := "", state := .model, subs := [1],
          model := [("c", 3), ("a", 1), ("b", 2)]}, {},
        [(1, {ev := .change (some [("a", .plain 1), ("c", .plain 3)]),
              changed := [("c", .plain 3)],
              oldValues := some [("a", 1), ("b", 2)]})]) := by
  obtain ⟨m', h1, h2⟩ := (handleEvent_change_spec
    {query := "", state := .model, subs := [1], model := [("a", 1), ("b", 2)]} {}
    {ev := .change (some [("a", .plain 1), ("c", .plain 3)])}
    [("a", .plain 1), ("c", .plain 3)] rfl rfl rfl (by decide)).2
    (by
      intro hall
      rcases hall ("c", .plain 3) (by decide) with ⟨hcon, _⟩ | ⟨w, hw, hget⟩
      · exact absurd hcon (by decide)
      · injection hw with hw'
        subst hw'
        exact absurd hget (by decide))
  have hcomp : handleEvent (β := Nat)
      {query := "", state := .model, subs := [1], model := [("a", 1), ("b", 2)]} {}
      {ev := .change (some [("a", .plain 1), ("c", .plain 3)])} =
    ({query := "", state := .model, subs := [1],
        model := [("c", 3), ("a", 1), ("b", 2)]}, {},
      [(1, {ev := .change (some [("a", .plain 1), ("c", .plain 3)]),
            changed := [("c", .plain 3)],
            oldValues := some [("a", 1), ("b", 2)]})]) := by decide
  rw [h1] at hcomp
  rw [h1]
  exact hcomp

/-! ## C7: collection add/remove bounds and splicing -/

theorem insertIdx_eq_take_cons_drop {α : Type} :
    ∀ (n : Nat) (l : List α) (v : α), n ≤ l.length →
      l.insertIdx n v = l.take n ++ v :: l.drop n
  | 0, l, v, _ => by simp
  | n + 1, [], v, h => by simp at h
  | n + 1, x :: xs, v, h => by
    rw [List.insertIdx_succ_cons, insertIdx_eq_take_cons_drop n xs v (by simpa using h)]
    simp

/-- C7: on a Collection-state, non-resetting D of length `len`: an add with index
outside [0,len] and a remove with index outside [0,len) are rejected — logged and
dropped, with no state change and no notification (the handler is a total
function: no crash) — while an in-bounds add replaces the collection with a
freshly allocated slice one longer with the value spliced at the index, and an
in-bounds remove captures the removed value into the event and replaces the
collection with a freshly allocated slice one shorter. -/
theorem handleEvent_collection_bounds {α β : Type} [DecidableEq α] (rs : RS α β)
    (es : ES α β) (hstate : rs.state = .collection) (hreset : rs.resetting = false) :
    (∀ (r : ResourceEvent α) (idx : Int) (v : α), r.ev = .add (some (idx, v)) →
      idx < 0 ∨ (rs.collection.length : Int) < idx →
      handleEvent rs es r = (rs, es, [])) ∧
    (∀ (r : ResourceEvent α) (idx : Int), r.ev = .remove (some idx) →
      idx < 0 ∨ (rs.collection.length : Int) ≤ idx →
      handleEvent rs es r = (rs, es, [])) ∧
    (∀ (r : ResourceEvent α) (idx : Int) (v : α), r.ev = .add (some (idx, v)) →
      0 ≤ idx → idx ≤ (rs.collection.length : Int) →
      handleEvent rs es r =
        ({rs with collection := rs.collection.insertIdx idx.toNat v}, es,
          rs.subs.map fun sub => (sub, {r with idx := idx, value := some v})) ∧
      (rs.collection.insertIdx idx.toNat v).length = rs.collection.length + 1) ∧
    (∀ (r : ResourceEvent α) (idx : Int), r.ev = .remove (some idx) →
      0 ≤ idx → idx < (rs.collection.length : Int) →
      handleEvent rs es r =
        ({rs with collection := rs.collection.eraseIdx idx.toNat}, es,
          rs.subs.map fun sub => (sub,
            {r with idx := idx, value := rs.collection[idx.toNat]?})) ∧
      (rs.collection.eraseIdx idx.toNat).length + 1 = rs.collection.length) := by
  have hguard : ∀ r : ResourceEvent α, r.ev.isSwitchCase = true →
      ¬ (rs.state.toByte ≤ SubState.requested.toByte ∧ r.ev.name ≠ "reaccess") := by
    intro r _
    rw [hstate]
    simp [SubState.toByte]
  have hnotmodel : ¬ rs.state = SubState.model := by rw [hstate]; simp
  refine ⟨?_, ?_, ?_, ?_⟩
  · intro r idx v hev hout
    simp only [handleEvent, hev]
    rw [if_neg (by rw [← hev]; exact hguard r (by rw [hev]; rfl))]
    rw [hreset]
    simp only [Bool.false_eq_true, if_false]
    simp only [handleEventAdd]
    rw [if_neg hnotmodel, if_pos hout]
  · intro r idx hev hout
    simp only [handleEvent, hev]
    rw [if_neg (by rw [← hev]; exact hguard r (by rw [hev]; rfl))]
    rw [hreset]
    simp only [Bool.false_eq_true, if_false]
    simp only [handleEventRemove]
    rw [if_neg hnotmodel, if_pos hout]
  · intro r idx v hev h0 hlen
    have hin : ¬ (idx < 0 ∨ (rs.collection.length : Int) < idx) := by omega
    have htn : idx.toNat ≤ rs.collection.length := by omega
    constructor
    · simp only [handleEvent, hev]
      rw [if_neg (by rw [← hev]; exact hguard r (by rw [hev]; rfl))]
      rw [hreset]
      simp only [Bool.false_eq_true, if_false]
      simp only [handleEventAdd]
      rw [if_neg hnotmodel, if_neg hin]
      rw [insertIdx_eq_take_cons_drop idx.toNat rs.collection v htn]
      simp [hreset]
      exact fun a _ => hev
    · rw [List.length_insertIdx idx.toNat rs.collection htn]
  · intro r idx hev h0 hlen
    have hin : ¬ (idx < 0 ∨ (rs.collection.length : Int) ≤ idx) := by omega
    have htn : idx.toNat < rs.collection.length := by omega
    constructor
    · simp only [handleEvent, hev]
      rw [if_neg (by rw [← hev]; exact hguard r (by rw [hev]; rfl))]
      rw [hreset]
      simp only [Bool.false_eq_true, if_false]
      simp only [handleEventRemove]
      rw [if_neg hnotmodel, if_neg hin]
      rw [List.eraseIdx_eq_take_drop_succ]
      simp [hreset]
      exact fun a _ => hev
    · rw [List.length_eraseIdx]
      rw [if_pos htn]
      omega

/-- C7 witness: scenario S2 — collection [X,Y,Z] as [10,20,30]: add at index 4 is
dropped; add of Q=99 at index 1 yields [10,99,20,30]. -/
theorem handleEvent_collection_bounds_witness :
    handleEvent (β := Nat)
        {query := "", state := .collection, subs := [1], collection := [10, 20, 30]} {}
        {ev := .add (some (4, 99))} =
      ({query := "", state := .collection, subs := [1], collection := [10, 20, 30]},
        {}, []) ∧
    handleEvent (β := Nat)
        {query := "", state := .collection, subs := [1], collection := [10, 20, 30]} {}
        {ev := .add (some (1, 99))} =
      ({query := "", state := .collection, subs := [1],
          collection := List.insertIdx 1 99 [10, 20, 30]}, {},
        [(1, {ev := .add (some (1, 99)), idx := 1, value := some 99})]) :=
  ⟨(handleEvent_collection_bounds
      {query := "", state := .collection, subs := [1], collection := [10, 20, 30]} {}
      rfl rfl).1 {ev := .add (some (4, 99))} 4 99 rfl (by decide),
    ((handleEvent_collection_bounds
      {query := "", state := .collection, subs := [1], collection := [10, 20, 30]} {}
      rfl rfl).2.2.1 {ev := .add (some (1, 99))} 1 99 rfl (by decide) (by decide)).1⟩

/-! ## C10 and C5: unregister, Unsubscribe and the failed-get path -/

theorem mapGet_mapDelete_of_none {g : Type} (m : List (String × g)) (k q : String)
    (h : mapGet m q = none) : mapGet (mapDelete m k) q = none := by
  by_cases hqk : q = k
  · subst hqk
    exact mapGet_mapDelete_self m q
  · rw [mapGet_mapDelete_ne m k q hqk]
    exact h

/-- The links fold of unregister never touches the queries map. -/
theorem unregister_fold_queries {α β : Type} (ls : List String) :
    ∀ es0 : ES α β,
      (ls.foldl (fun e q =>
        if q = "" then {e with base := none}
        else {e with links := mapDelete e.links q}) es0).queries = es0.queries := by
  induction ls with
  | nil => intro es0; rfl
  | cons q rest ih =>
    intro es0
    rw [List.foldl_cons, ih]
    by_cases hq : q = "" <;> simp [hq]

/-- The links fold of unregister never touches the count. -/
theorem unregister_fold_count {α β : Type} (ls : List String) :
    ∀ es0 : ES α β,
      (ls.foldl (fun e q =>
        if q = "" then {e with base := none}
        else {e with links := mapDelete e.links q}) es0).count = es0.count := by
  induction ls with
  | nil => intro es0; rfl
  | cons q rest ih =>
    intro es0
    rw [List.foldl_cons, ih]
    by_cases hq : q = "" <;> simp [hq]

/-- The links fold of unregister never re-creates a links entry. -/
theorem unregister_fold_links_pres {α β : Type} (ls : List String) :
    ∀ (es0 : ES α β) (q : String), mapGet es0.links q = none →
      mapGet ((ls.foldl (fun e q' =>
        if q' = "" then {e with base := none}
        else {e with links := mapDelete e.links q'}) es0)).links q = none := by
  induction ls with
  | nil => intro es0 q h; exact h
  | cons q0 rest ih =>
    intro es0 q h
    rw [List.foldl_cons]
    apply ih
    by_cases hq0 : q0 = ""
    · simpa [hq0] using h
    · simpa [hq0] using mapGet_mapDelete_of_none es0.links q0 q h

/-- After the links fold of unregister every non-empty listed query is gone from
the links map. -/
theorem unregister_fold_links_member {α β : Type} (ls : List String) :
    ∀ (es0 : ES α β) (q : String), q ∈ ls → q ≠ "" →
      mapGet ((ls.foldl (fun e q' =>
        if q' = "" then {e with base := none}
        else {e with links := mapDelete e.links q'}) es0)).links q = none := by
  induction ls with
  | nil => intro es0 q h _; exact absurd h (List.not_mem_nil q)
  | cons q0 rest ih =>
    intro es0 q hmem hq
    rw [List.foldl_cons]
    rcases List.mem_cons.mp hmem with rfl | hmem'
    · apply unregister_fold_links_pres
      simpa [hq] using mapGet_mapDelete_self es0.links q
    · exact ih _ q hmem' hq

/-- The links fold of unregister never sets base to a value. -/
theorem unregister_fold_base_pres {α β : Type} (ls : List String) :
    ∀ es0 : ES α β, es0.base = none →
      (ls.foldl (fun e q =>
        if q = "" then {e with base := none}
        else {e with links := mapDelete e.links q}) es0).base = none := by
  induction ls with
  | nil => intro es0 h; exact h
  | cons q rest ih =>
    intro es0 h
    rw [List.foldl_cons]
    apply ih
    by_cases hq : q = "" <;> simp [hq, h]

/-- C10: `Unsubscribe` with a nil subscriber removes no subscriber from the set,
yet still decrements the parent count by one; when additionally the D is a
query-D whose subscriber set is already empty, the D is unregistered: the query
leaves the queries map, the link list is cleared, and every non-empty linked
query leaves the links map.  When the condition does not hold, nothing but the
count changes.  The operation is a total function: a nil subscriber never makes
it panic. -/
theorem unsubscribe_nil_spec {α β : Type} [DecidableEq β] (rs : RS α β) (es : ES α β) :
    ((Unsubscribe rs es none).1.subs = rs.subs) ∧
    ((Unsubscribe rs es none).2.count = es.count - 1) ∧
    (rs.query ≠ "" → rs.subs = [] →
      (Unsubscribe rs es none).1.links = [] ∧
      mapGet (Unsubscribe rs es none).2.queries rs.query = none ∧
      (∀ q ∈ rs.links, q ≠ "" → mapGet (Unsubscribe rs es none).2.links q = none)) ∧
    (¬ (rs.query ≠ "" ∧ rs.subs = []) →
      (Unsubscribe rs es none).1 = rs ∧
      (Unsubscribe rs es none).2 = {es with count := es.count - 1}) := by
  by_cases hcond : rs.query ≠ "" ∧ rs.subs = []
  · have hu : Unsubscribe rs es none =
        ((unregister rs es).1, {(unregister rs es).2 with
          count := (unregister rs es).2.count - 1}) := by
      simp only [Unsubscribe]
      rw [if_pos hcond]
    rw [hu]
    simp only [unregister]
    refine ⟨by trivial, ?_, fun _ _ => ⟨by trivial, ?_, ?_⟩, fun hn => absurd hcond hn⟩
    · rw [unregister_fold_count]
      by_cases hq : rs.query = "" <;> simp [hq]
    · rw [unregister_fold_queries]
      rw [if_neg hcond.1]
      exact mapGet_mapDelete_self es.queries rs.query
    · intro q hqmem hq
      exact unregister_fold_links_member rs.links _ q hqmem hq
  · have hu : Unsubscribe rs es none = (rs, {es with count := es.count - 1}) := by
      simp only [Unsubscribe]
      rw [if_neg hcond]
    rw [hu]
    exact ⟨rfl, rfl, fun h1 h2 => absurd ⟨h1, h2⟩ hcond, fun _ => ⟨rfl, rfl⟩⟩

/-- C5: a failed get — a transport error or an undecodable/error response, both
surfacing as `.error e` from the decode step — moves the requesting D to Error
with the error stored, unregisters the D together with its links (base cleared
for the base D, the query dropped from the queries map otherwise, every
non-empty link dropped from the links map), and every subscriber that was
waiting is notified exactly once via Loaded(nil, err). -/
theorem enqueueGetResponse_error_spec {α β : Type} [DecidableEq α] [DecidableEq β]
    (rs : RS α β) (es : ES α β) (e : String) :
    ((enqueueGetResponse rs es (.error e)).1.state = .error) ∧
    ((enqueueGetResponse rs es (.error e)).1.err = some e) ∧
    ((enqueueGetResponse rs es (.error e)).1.links = []) ∧
    (rs.query ≠ "" →
      mapGet (enqueueGetResponse rs es (.error e)).2.1.queries rs.query = none) ∧
    (rs.query = "" → (enqueueGetResponse rs es (.error e)).2.1.base = none) ∧
    (∀ q ∈ rs.links, q ≠ "" →
      mapGet (enqueueGetResponse rs es (.error e)).2.1.links q = none) ∧
    ((enqueueGetResponse rs es (.error e)).2.2 =
      rs.subs.map fun sub => (sub, none, some e)) ∧
    (rs.subs.Nodup → ((enqueueGetResponse rs es (.error e)).2.2.map Prod.fst).Nodup) := by
  have hp : processGetResponse rs es (.error e) =
      ((unregister {rs with state := .error, err := some e, subs := []} es).1,
        {(unregister {rs with state := .error, err := some e, subs := []} es).2 with
          count := (unregister {rs with state := .error, err := some e, subs := []}
            es).2.count - (rs.subs.length : Int)},
        rs.subs) := by
    simp only [processGetResponse]
  have hst : (processGetResponse rs es (.error e)).1.state = .error := by
    rw [hp]
    simp only [unregister]
  have he : enqueueGetResponse rs es (.error e) =
      ((processGetResponse rs es (.error e)).1,
        (processGetResponse rs es (.error e)).2.1,
        (processGetResponse rs es (.error e)).2.2.map fun sub =>
          (sub, none, (processGetResponse rs es (.error e)).1.err)) := by
    simp only [enqueueGetResponse]
    rw [if_pos hst]
  rw [he, hp]
  simp only [unregister]
  refine ⟨by trivial, by trivial, by trivial, ?_, ?_, ?_, ?_, ?_⟩
  · intro hq
    rw [unregister_fold_queries]
    rw [if_neg hq]
    exact mapGet_mapDelete_self es.queries rs.query
  · intro hq
    apply unregister_fold_base_pres
    rw [if_pos hq]
  · intro q hqmem hq
    exact unregister_fold_links_member rs.links _ q hqmem hq
  · simp
  · intro hnd
    have hmm : (Prod.fst ∘ fun sub : β => (sub, (none : Option (RS α β)), some e)) = id := by
      funext x
      rfl
    simp only [List.map_map, hmm, List.map_id]
    exact hnd

/-! ## C4: query normalization in processGetResponse -/

/-- Membership is preserved and extended by the subscriber-migration fold
(`for sub := range rs.subs { nrs.subs[sub] = struct{}{} }`). -/
theorem mem_migrate_foldl {β : Type} [DecidableEq β] :
    ∀ (l acc : List β) (x : β), (x ∈ acc ∨ x ∈ l) →
      x ∈ l.foldl (fun acc s => if s ∈ acc then acc else acc ++ [s]) acc := by
  intro l
  induction l with
  | nil =>
    intro acc x h
    rcases h with h | h
    · exact h
    · exact absurd h (List.not_mem_nil x)
  | cons s rest ih =>
    intro acc x h
    rw [List.foldl_cons]
    apply ih
    rcases h with h | h
    · left
      by_cases hs : s ∈ acc
      · rwa [if_pos hs]
      · rw [if_neg hs]
        exact List.mem_append_left _ h
    · rcases List.mem_cons.mp h with rfl | h'
      · left
        by_cases hs : x ∈ acc
        · rwa [if_pos hs]
        · rw [if_neg hs]
          exact List.mem_append_right _ (List.mem_singleton.mpr rfl)
      · exact Or.inr h'

/-- C4 (with `getResourceSubscription` modelled from the spec): when the get
response carries a normalized query different from the requested one,
`processGetResponse` migrates every subscriber of the requesting D onto the
canonical D; records the requested query as a link — it is appended to the
canonical D's link list, and for a query-D the parent's links map points it at
the canonical query while the queries map drops it, while for the base D the
parent's base is redirected to the canonical D; installs the decoded
Model/Collection only if the canonical D's state is still Requested (a D freshly
created by normalization starts Requested); and returns as the notify list
exactly the pre-normalization subscriber set of the requesting D, so a
subscriber already attached to the canonical D that is not among the requesters
is not re-notified. -/
theorem processGetResponse_normalization_spec {α β : Type} [DecidableEq α]
    [DecidableEq β] (rs : RS α β) (es : ES α β) (result : GetResult α)
    (hq : result.query ≠ rs.query) :
    (∀ sub ∈ rs.subs, sub ∈ (processGetResponse rs es (.ok result)).1.subs) ∧
    (rs.query ∈ (processGetResponse rs es (.ok result)).1.links) ∧
    (rs.query ≠ "" →
      mapGet (processGetResponse rs es (.ok result)).2.1.links rs.query =
        some result.query ∧
      mapGet (processGetResponse rs es (.ok result)).2.1.queries rs.query = none) ∧
    (rs.query = "" →
      (processGetResponse rs es (.ok result)).2.1.base =
        some (processGetResponse rs es (.ok result)).1) ∧
    ((getResourceSubscription es result.query).1.state = .requested →
      (∀ m, result.model = some m →
        (processGetResponse rs es (.ok result)).1.state = .model ∧
        (processGetResponse rs es (.ok result)).1.model = m) ∧
      (result.model = none →
        (processGetResponse rs es (.ok result)).1.state = .collection ∧
        (processGetResponse rs es (.ok result)).1.collection = result.collection)) ∧
    ((getResourceSubscription es result.query).1.state = .model ∨
        (getResourceSubscription es result.query).1.state = .collection →
      (processGetResponse rs es (.ok result)).1.state =
        (getResourceSubscription es result.query).1.state ∧
      (processGetResponse rs es (.ok result)).1.model =
        (getResourceSubscription es result.query).1.model ∧
      (processGetResponse rs es (.ok result)).1.collection =
        (getResourceSubscription es result.query).1.collection) ∧
    ((processGetResponse rs es (.ok result)).2.2 = rs.subs) ∧
    (∀ sub, sub ∉ rs.subs → sub ∉ (processGetResponse rs es (.ok result)).2.2) := by
  rcases hG : getResourceSubscription es result.query with ⟨nrs0, es1⟩
  set nrs1 : RS α β := {nrs0 with links := nrs0.links ++ [rs.query],
                                  subs := rs.subs.foldl (fun acc sb =>
                                    if sb ∈ acc then acc else acc ++ [sb]) nrs0.subs}
    with hnrs1
  set nrs2 : RS α β := if nrs1.state.toByte > SubState.requested.toByte then nrs1
    else install nrs1 result with hnrs2
  set es2 : ES α β := if rs.query = "" then es1
    else {es1 with links := mapSet es1.links rs.query result.query,
                   queries := mapDelete es1.queries rs.query}
    with hes2
  set es3 : ES α β := if result.query = "" then {es2 with base := some nrs2}
    else {es2 with queries := mapSet es2.queries result.query nrs2} with hes3
  set es4 : ES α β := if rs.query = "" then {es3 with base := some nrs2} else es3
    with hes4
  have hmain : processGetResponse rs es (.ok result) = (nrs2, es4, rs.subs) := by
    simp only [processGetResponse]
    rw [if_pos hq, hG]
  have hstate1 : nrs1.state = nrs0.state := by rw [hnrs1]
  have hsubs2 : nrs2.subs = nrs1.subs := by
    rw [hnrs2]
    by_cases hc : nrs1.state.toByte > SubState.requested.toByte
    · rw [if_pos hc]
    · rw [if_neg hc]
      cases hm : result.model <;> simp [install, hm]
  have hlinks2 : nrs2.links = nrs1.links := by
    rw [hnrs2]
    by_cases hc : nrs1.state.toByte > SubState.requested.toByte
    · rw [if_pos hc]
    · rw [if_neg hc]
      cases hm : result.model <;> simp [install, hm]
  have hlinks4 : es4.links = es2.links := by
    rw [hes4, hes3]
    by_cases h1 : rs.query = "" <;> by_cases h2 : result.query = "" <;> simp [h1, h2]
  have hqueries3 : es3.queries = if result.query = "" then es2.queries
      else mapSet es2.queries result.query nrs2 := by
    rw [hes3]
    by_cases h2 : result.query = "" <;> simp [h2]
  have hqueries4 : es4.queries = es3.queries := by
    rw [hes4]
    by_cases h1 : rs.query = "" <;> simp [h1]
  refine ⟨?_, ?_, ?_, ?_, ?_, ?_, ?_, ?_⟩
  · intro sub hsub
    rw [hmain]
    show sub ∈ nrs2.subs
    rw [hsubs2, hnrs1]
    exact mem_migrate_foldl rs.subs nrs0.subs sub (Or.inr hsub)
  · rw [hmain]
    show rs.query ∈ nrs2.links
    rw [hlinks2, hnrs1]
    exact List.mem_append_right _ (List.mem_singleton.mpr rfl)
  · intro hrq
    rw [hmain]
    constructor
    · show mapGet es4.links rs.query = some result.query
      rw [hlinks4, hes2, if_neg hrq]
      exact mapGet_mapSet_self es1.links rs.query result.query
    · show mapGet es4.queries rs.query = none
      rw [hqueries4, hqueries3]
      have hbase : mapGet es2.queries rs.query = none := by
        rw [hes2, if_neg hrq]
        exact mapGet_mapDelete_self es1.queries rs.query
      by_cases h2 : result.query = ""
      · rw [if_pos h2]
        exact hbase
      · rw [if_neg h2]
        rw [mapGet_mapSet_ne es2.queries result.query rs.query nrs2 (Ne.symm hq)]
        exact hbase
  · intro hrq
    rw [hmain]
    show es4.base = some nrs2
    rw [hes4, if_pos hrq]
  · intro hreq
    rw [hmain]
    have hc : ¬ nrs1.state.toByte > SubState.requested.toByte := by
      rw [hstate1, hreq]
      simp [SubState.toByte]
    constructor
    · intro m hm
      show nrs2.state = .model ∧ nrs2.model = m
      rw [hnrs2, if_neg hc]
      simp [install, hm]
    · intro hm
      show nrs2.state = .collection ∧ nrs2.collection = result.collection
      rw [hnrs2, if_neg hc]
      simp [install, hm]
  · intro hloaded
    rw [hmain]
    have hc : nrs1.state.toByte > SubState.requested.toByte := by
      rw [hstate1]
      rcases hloaded with h | h <;> rw [h] <;> simp [SubState.toByte]
    refine ⟨?_, ?_, ?_⟩
    · show nrs2.state = nrs0.state
      rw [hnrs2, if_pos hc, hstate1]
    · show nrs2.model = nrs0.model
      rw [hnrs2, if_pos hc, hnrs1]
    · show nrs2.collection = nrs0.collection
      rw [hnrs2, if_pos hc, hnrs1]
  · rw [hmain]
  · intro sub hsub
    rw [hmain]
    exact hsub

/-- C4 witness: a requesting D for query "q1" with one subscriber, whose get
response is normalized to "q2" and carries a model: the subscriber is migrated
onto the canonical D and "q1" becomes a link. -/
theorem processGetResponse_normalization_spec_witness :
    (4 ∈ (processGetResponse (α := Nat) (β := Nat)
        {query := "q1", state := .requested, subs := [4]}
        {queries := [("q1", {query := "q1", state := .requested, subs := [4]})],
         count := 1}
        (.ok {query := "q2", model := some [("x", 9)]})).1.subs) ∧
    ("q1" ∈ (processGetResponse (α := Nat) (β := Nat)
        {query := "q1", state := .requested, subs := [4]}
        {queries := [("q1", {query := "q1", state := .requested, subs := [4]})],
         count := 1}
        (.ok {query := "q2", model := some [("x", 9)]})).1.links) :=
  have h := processGetResponse_normalization_spec (α := Nat) (β := Nat)
    {query := "q1", state := .requested, subs := [4]}
    {queries := [("q1", {query := "q1", state := .requested, subs := [4]})],
     count := 1}
    {query := "q2", model := some [("x", 9)]} (by decide)
  ⟨h.1 4 (by decide), h.2.1⟩

end Resgate
